import Mathlib

/-!
Verification of the dependency-graph engine of `copilot-app-architect`
(`src/graph/analyzer.ts`: `GraphAnalyzer`, `buildGraph`, `mergeGraphs`,
`inferNodeType`, `extractNodeName`).

Modelling conventions:
* TypeScript string-union enums (`DependencyType`, `NodeType`, impact levels,
  severities) are modelled as `String`, exactly as they are compared in the
  source (by string equality).
* `Record<string, unknown>` metadata is modelled as an association list
  `List (String × String)`; the engine never inspects metadata, it only
  carries it, so an opaque payload with decidable equality is faithful.
* JS `Set` objects are modelled as `List String` used only through
  membership (`contains`) and guarded insertion, which has the same
  observable behaviour.
* JS `Map` adjacency indices (built once in the `GraphAnalyzer` constructor)
  are modelled as functions `String → List String`.  For every key `k`,
  `adjacencyList.get(k) || []` in the source equals the list of targets of
  edges with source `k` in edge order (the constructor seeds every node id
  with `[]` and then appends per edge), which is exactly what the
  functional model returns; likewise for the reverse index.
* `uuidv4()` (external library) is modelled as a fresh-identifier supply:
  edge ids are drawn from a counter threaded through construction, giving
  the guarantee the source relies on (each generated id is new).  Graph
  ids, which no claim touches, are fixed to `0`.
* The recursive / queue-based traversals of the source are written with an
  explicit fuel argument large enough that the model never exhausts it on
  the executions the source performs (each recursive call strictly grows a
  visited/result set drawn from node ids and edge endpoints); for the BFS
  of `getBlastRadius` fuel sufficiency is proved outright.
-/

namespace ArchGraph

/-- Opaque metadata payload (`Record<string, unknown>` in `types.ts`). -/
abbrev Metadata := List (String × String)

/-- Model of `ParsedDependency` from `types.ts`. -/
structure ParsedDependency where
  source : String
  target : String
  type : String
  metadata : Option Metadata
deriving DecidableEq, Repr

/-- Model of `GraphNode` from `types.ts`. -/
structure GraphNode where
  id : String
  name : String
  type : String
  metadata : Metadata
deriving DecidableEq, Repr

/-- Model of `GraphEdge` from `types.ts`; the generated `id` is modelled as a
natural number drawn from a fresh-identifier supply (see header). -/
structure GraphEdge where
  id : Nat
  source : String
  target : String
  type : String
  metadata : Option Metadata
deriving DecidableEq, Repr

/-- Graph-level metadata from `types.ts`. -/
structure GraphMetadata where
  createdAt : String
  sourceType : String
  sourcePath : String
deriving DecidableEq, Repr

/-- Model of `DependencyGraph` from `types.ts`. -/
structure DependencyGraph where
  id : Nat
  name : String
  nodes : List GraphNode
  edges : List GraphEdge
  metadata : GraphMetadata
deriving DecidableEq, Repr

/-! ## Graph builder (`buildGraph` and helpers, analyzer.ts lines 341-509) -/

/-- Substring occurrence on char lists: `pat` occurs somewhere in the
list.  (Char-list implementation of JS `String.prototype.includes`.) -/
def hasSubstr (pat : List Char) : List Char → Bool
  | [] => pat.isEmpty
  | c :: rest => pat.isPrefixOf (c :: rest) || hasSubstr pat rest

/-- JS `s.includes(pat)`: unanchored case-sensitive substring check. -/
def strContains (s pat : String) : Bool :=
  hasSubstr pat.data s.data

/-- JS `s.startsWith(pat)`. -/
def strStartsWith (s pat : String) : Bool :=
  pat.data.isPrefixOf s.data

/-- JS `String.prototype.split` with a one-character separator, on char
lists.  Splitting the empty string yields `[""]`, as in JS. -/
def splitOnChar (sep : Char) : List Char → List (List Char)
  | [] => [[]]
  | x :: xs =>
    let r := splitOnChar sep xs
    if x == sep then [] :: r
    else
      match r with
      | [] => [[x]]
      | h :: t => (x :: h) :: t

/-- Model of `extractNodeName(id)`: last `/`-segment, else last `.`-segment, else the
id itself (the `@`-prefix branch of the source also returns the id
unchanged).  JS `split(sep).pop() || id` falls back to `id` when the last
segment is the empty string. -/
def extractNodeName (id : String) : String :=
  if strContains id "/" then
    match (splitOnChar '/' id.data).getLast? with
    | some s => if s.isEmpty then id else String.mk s
    | none => id
  else if strContains id "." then
    match (splitOnChar '.' id.data).getLast? with
    | some s => if s.isEmpty then id else String.mk s
    | none => id
  else if strStartsWith id "@" then
    id
  else
    id

/-- Model of `inferNodeType(id, depType)`: priority-ordered first-match rules. -/
def inferNodeType (id : String) (depType : String) : String :=
  if strStartsWith id "Deployment/" || strStartsWith id "StatefulSet/"
      || strStartsWith id "DaemonSet/" then
    "k8s_deployment"
  else if strStartsWith id "Service/" then
    "k8s_service"
  else if strStartsWith id "ConfigMap/" || strStartsWith id "Secret/" then
    "k8s_deployment"
  else if depType == "terraform_resource" then
    if strContains id "db" || strContains id "rds" || strContains id "database" then
      "database"
    else if strContains id "queue" || strContains id "sqs" || strContains id "sns" then
      "queue"
    else
      "terraform_resource"
  else if depType == "docker_depends_on" || depType == "docker_network" then
    "docker_service"
  else if depType == "npm_dependency" || depType == "npm_devDependency" then
    "npm_package"
  else if depType == "codeowner" then
    if strStartsWith id "@" then "team" else "service"
  else
    "unknown"

/-- Modelled from the spec: §4.1 "Type inference" bullet list, written out
rule by rule from the spec's words (kind names as in the code's
`DependencyType` union, which the claim's "npm kinds"/"docker kinds"
denote), to be compared with the source-derived `inferNodeType`. -/
def specNodeType (id : String) (kind : String) : String :=
  if strStartsWith id "Deployment/" then "k8s_deployment"
  else if strStartsWith id "StatefulSet/" then "k8s_deployment"
  else if strStartsWith id "DaemonSet/" then "k8s_deployment"
  else if strStartsWith id "Service/" then "k8s_service"
  else if strStartsWith id "ConfigMap/" then "k8s_deployment"
  else if strStartsWith id "Secret/" then "k8s_deployment"
  else if kind == "terraform_resource" then
    if strContains id "db" then "database"
    else if strContains id "rds" then "database"
    else if strContains id "database" then "database"
    else if strContains id "queue" then "queue"
    else if strContains id "sqs" then "queue"
    else if strContains id "sns" then "queue"
    else "terraform_resource"
  else if kind == "docker_depends_on" then "docker_service"
  else if kind == "docker_network" then "docker_service"
  else if kind == "npm_dependency" then "npm_package"
  else if kind == "npm_devDependency" then "npm_package"
  else if kind == "codeowner" then
    if strStartsWith id "@" then "team" else "service"
  else "unknown"

/-- Model of `createNode(id, depType)` (analyzer.ts line 394). -/
def createNode (id : String) (depType : String) : GraphNode :=
  { id := id
    name := extractNodeName id
    type := inferNodeType id depType
    metadata := [("originalId", id)] }

/-- One insertion step of the first pass of `buildGraph`: add a node for
`id` unless one with that id is already present. -/
def addNode (acc : List GraphNode) (id : String) (depType : String) :
    List GraphNode :=
  if acc.any (fun n => n.id == id) then acc else acc ++ [createNode id depType]

/-- One fact of the first pass of `buildGraph`: insert the source node,
then the target node. -/
def buildNodeStep (acc : List GraphNode) (d : ParsedDependency) : List GraphNode :=
  addNode (addNode acc d.source d.type) d.target d.type

/-- First pass of `buildGraph`: collect all unique nodes in first-seen
order (source before target, facts in input order). -/
def collectNodes (deps : List ParsedDependency) : List GraphNode :=
  deps.foldl buildNodeStep []

/-- The `source|target|type` dedup key of the second pass of `buildGraph`. -/
def edgeKey (source target type : String) : String :=
  source ++ "|" ++ target ++ "|" ++ type

/-- Accumulator of the second pass: emitted edges, seen dedup keys, and the
fresh-id counter that models `uuidv4()`. -/
structure EdgeAcc where
  edges : List GraphEdge
  keys : List String
  counter : Nat
deriving Repr

/-- One step of the second pass of `buildGraph`: skip a fact whose dedup
key was already emitted, otherwise emit a new edge with a fresh id. -/
def addEdge (acc : EdgeAcc) (d : ParsedDependency) : EdgeAcc :=
  let key := edgeKey d.source d.target d.type
  if acc.keys.contains key then acc
  else
    { edges := acc.edges ++
        [{ id := acc.counter, source := d.source, target := d.target,
           type := d.type, metadata := d.metadata }]
      keys := acc.keys ++ [key]
      counter := acc.counter + 1 }

/-- Second pass of `buildGraph`. -/
def collectEdges (deps : List ParsedDependency) : EdgeAcc :=
  deps.foldl addEdge { edges := [], keys := [], counter := 0 }

/-- Model of `BuildGraphOptions` from the builder. -/
structure BuildGraphOptions where
  name : String
  sourceType : String
  sourcePath : String
deriving DecidableEq, Repr

/-- Model of `buildGraph(dependencies, options)` (analyzer.ts lines 341-389).  The
wall-clock `createdAt` timestamp is passed in as a parameter. -/
def buildGraph (deps : List ParsedDependency) (options : BuildGraphOptions)
    (createdAt : String) : DependencyGraph :=
  { id := 0
    name := options.name
    nodes := collectNodes deps
    edges := (collectEdges deps).edges
    metadata :=
      { createdAt := createdAt
        sourceType := options.sourceType
        sourcePath := options.sourcePath } }

/-- Node-collection step of `mergeGraphs`: union by id, first graph wins. -/
def mergeAddNode (acc : List GraphNode) (n : GraphNode) : List GraphNode :=
  if acc.any (fun m => m.id == n.id) then acc else acc ++ [n]

/-- Edge accumulator of `mergeGraphs` (edges keep their original ids). -/
structure MergeEdgeAcc where
  edges : List GraphEdge
  keys : List String
deriving Repr

/-- Edge-collection step of `mergeGraphs`: dedup by `source|target|type`
key, keeping the first occurrence with its original id and metadata. -/
def mergeAddEdge (acc : MergeEdgeAcc) (e : GraphEdge) : MergeEdgeAcc :=
  let key := edgeKey e.source e.target e.type
  if acc.keys.contains key then acc
  else { edges := acc.edges ++ [e], keys := acc.keys ++ [key] }

/-- Model of `mergeGraphs(graphs, name)` (analyzer.ts lines 477-509): the nested
for-loops over `graphs` and each graph's nodes/edges, as left folds. -/
def mergeGraphs (graphs : List DependencyGraph) (name : String)
    (createdAt : String) : DependencyGraph :=
  { id := 0
    name := name
    nodes := graphs.foldl
      (fun (acc : List GraphNode) (g : DependencyGraph) =>
        g.nodes.foldl mergeAddNode acc) []
    edges := (graphs.foldl
      (fun (acc : MergeEdgeAcc) (g : DependencyGraph) =>
        g.edges.foldl mergeAddEdge acc)
      { edges := [], keys := [] }).edges
    metadata := { createdAt := createdAt, sourceType := "local", sourcePath := "merged" } }

/-! ## GraphAnalyzer (analyzer.ts lines 13-319)

The constructor's `adjacencyList` / `reverseAdjacencyList` maps are
modelled as functions: for every key `k`, `this.adjacencyList.get(k) || []`
equals the targets of edges with source `k`, in edge order; likewise the
reverse index returns the sources of edges with target `k`. -/

/-- Forward adjacency lookup: `adjacencyList.get(x) || []`. -/
def forwardAdj (g : DependencyGraph) (x : String) : List String :=
  (g.edges.filter (fun e => e.source == x)).map (fun e => e.target)

/-- Reverse adjacency lookup: `reverseAdjacencyList.get(x) || []`. -/
def reverseAdj (g : DependencyGraph) (x : String) : List String :=
  (g.edges.filter (fun e => e.target == x)).map (fun e => e.source)

/-- One edge of the forward dependency relation: `a` directly depends on
`b` (there is an edge `a → b`). -/
def FwdStep (g : DependencyGraph) (a b : String) : Prop :=
  ∃ e ∈ g.edges, e.source = a ∧ e.target = b

/-- One edge of the reverse relation: `b` directly depends on `a`. -/
def RevStep (g : DependencyGraph) (a b : String) : Prop :=
  ∃ e ∈ g.edges, e.target = a ∧ e.source = b

/-- Dependency relation: `y` depends on `start` directly or indirectly, i.e. `y` is transitively
reachable from `start` over the reverse adjacency. -/
def DependsOn (g : DependencyGraph) (start y : String) : Prop :=
  Relation.TransGen (RevStep g) start y

/-- The graph contains a directed cycle. -/
def HasCycle (g : DependencyGraph) : Prop :=
  ∃ x, Relation.TransGen (FwdStep g) x x

/-- Referential integrity: every edge's source and target is the id of
some node of the graph (spec §3 invariant). -/
def EdgesWellFormed (g : DependencyGraph) : Prop :=
  ∀ e ∈ g.edges, (∃ n ∈ g.nodes, n.id = e.source) ∧ ∃ n ∈ g.nodes, n.id = e.target

instance (g : DependencyGraph) : DecidablePred (fun (e : GraphEdge) =>
    (∃ n ∈ g.nodes, n.id = e.source) ∧ ∃ n ∈ g.nodes, n.id = e.target) := by
  intro e; exact instDecidableAnd

instance (g : DependencyGraph) : Decidable (EdgesWellFormed g) :=
  List.decidableBAll _ g.edges

/-- Model of `BlastRadiusResult` from `types.ts`. -/
structure BlastRadiusResult where
  targetNode : String
  affectedNodes : List GraphNode
  affectedEdges : List GraphEdge
  impactLevel : String
deriving DecidableEq, Repr

/-- Model of `CouplingResult` from `types.ts` (`couplingStrength` is an exact
rational in the model; the source computes the same quotient in JS
number arithmetic). -/
structure CouplingResult where
  nodes : List String
  sharedDependencies : List GraphNode
  couplingStrength : ℚ
  reasons : List String
deriving DecidableEq, Repr

/-- Model of `CycleResult` from `types.ts`. -/
structure CycleResult where
  cycles : List (List GraphNode)
  severity : String
deriving DecidableEq, Repr

/-! ### getBlastRadius (lines 66-109) -/

/-- The inner `for (const dep of dependents)` loop of the BFS: add each
dependent to `affected` and to the queue unless it is already affected or
is the start node itself. -/
def bfsVisit (start : String) : List String → List String → List String →
    List String × List String
  | [], affected, queue => (affected, queue)
  | dep :: rest, affected, queue =>
    if affected.contains dep || dep == start then bfsVisit start rest affected queue
    else bfsVisit start rest (affected ++ [dep]) (queue ++ [dep])

/-- The `while (queue.length > 0)` BFS loop, with fuel.  `getBlastRadius`
runs it with fuel `edges.length + 1`, which is proved sufficient
(`bfsLoop_measure` below): every queue entry beyond the start is a distinct
edge source. -/
def bfsLoop (g : DependencyGraph) (start : String) :
    Nat → List String → List String → List String
  | 0, affected, _ => affected
  | _ + 1, affected, [] => affected
  | fuel + 1, affected, current :: queue =>
    let p := bfsVisit start (reverseAdj g current) affected queue
    bfsLoop g start fuel p.1 p.2

/-- The BFS-computed affected set of `getBlastRadius`. -/
def blastAffected (g : DependencyGraph) (nodeId : String) : List String :=
  bfsLoop g nodeId (g.edges.length + 1) [] [nodeId]

/-- The impact-level if-chain of `getBlastRadius` (lines 93-101). -/
def impactLevelOf (r : ℚ) : String :=
  if r > 0.5 then "critical"
  else if r > 0.25 then "high"
  else if r > 0.1 then "medium"
  else "low"

/-- Model of `getBlastRadius(nodeId)` (lines 66-109).  The impact ratio is the
exact rational `|affectedNodes| / totalNodes` (with the Lean convention
`0 / 0 = 0`, which like JS `NaN` fails all three strict comparisons). -/
def getBlastRadius (g : DependencyGraph) (nodeId : String) : BlastRadiusResult :=
  let affected := blastAffected g nodeId
  let affectedNodes := g.nodes.filter (fun n => affected.contains n.id)
  let affectedEdges := g.edges.filter
    (fun e => affected.contains e.source || affected.contains e.target
      || e.target == nodeId)
  let totalNodes := g.nodes.length
  { targetNode := nodeId
    affectedNodes := affectedNodes
    affectedEdges := affectedEdges
    impactLevel := impactLevelOf ((affectedNodes.length : ℚ) / (totalNodes : ℚ)) }

/-! ### findCouplingReason (lines 114-187) -/

/-- Recursion-depth fuel for the recursive closure/DFS traversals: every
nested call strictly grows a visited/result set whose members are node ids
or edge endpoints, so nesting depth never exceeds this bound. -/
def traversalFuel (g : DependencyGraph) : Nat :=
  g.nodes.length + 2 * g.edges.length + 1

/-- The `for (const dep of deps)` loop shared by `collectAllDependencies`
and `collectAllDependents`: skip already-collected ids, otherwise add and
recurse (`step`). -/
def collectList (step : String → List String → List String) :
    List String → List String → List String
  | [], result => result
  | dep :: rest, result =>
    let result' := if result.contains dep then result else step dep (result ++ [dep])
    collectList step rest result'

/-- Model of `collectAllDependencies` / `collectAllDependents` (lines 240-261),
parametrized by the adjacency direction, with fuel. -/
def collectAll (adj : String → List String) : Nat → String → List String → List String
  | 0, _, result => result
  | fuel + 1, nodeId, result => collectList (collectAll adj fuel) (adj nodeId) result

/-- The full downstream dependency closure computed for one coupling
input node. -/
def closureOf (g : DependencyGraph) (id : String) : List String :=
  collectAll (forwardAdj g) (traversalFuel g) id []

/-- The full upstream dependent closure computed for one coupling input
node. -/
def dependentClosureOf (g : DependencyGraph) (id : String) : List String :=
  collectAll (reverseAdj g) (traversalFuel g) id []

/-- Model of `intersectSets(sets)` (lines 266-275). -/
def intersectSets : List (List String) → List String
  | [] => []
  | s :: rest => rest.foldl (fun acc t => acc.filter (fun x => t.contains x)) s

/-- The `sharedDependencies` node list of `findCouplingReason`. -/
def sharedDependencies (g : DependencyGraph) (nodeIds : List String) :
    List GraphNode :=
  g.nodes.filter (fun n => (intersectSets (nodeIds.map (closureOf g))).contains n.id)

/-- The `sharedDependents` id set of `findCouplingReason`. -/
def sharedDependents (g : DependencyGraph) (nodeIds : List String) : List String :=
  intersectSets (nodeIds.map (dependentClosureOf g))

/-- Model of `graph.nodes.find(n => n.id === id)`. -/
def findNode (g : DependencyGraph) (id : String) : Option GraphNode :=
  g.nodes.find? (fun n => n.id == id)

/-- The ordered `(i, j), i < j` pairs of the direct-edge double loop. -/
def listPairs : List String → List (String × String)
  | [] => []
  | x :: xs => xs.map (fun y => (x, y)) ++ listPairs xs

/-- Whether some edge connects `a` and `b` in either direction. -/
def hasDirectEdge (g : DependencyGraph) (a b : String) : Bool :=
  g.edges.any (fun e => (e.source == a && e.target == b)
    || (e.source == b && e.target == a))

/-- The "Direct dependency between ..." reasons, one per unordered input
pair with a direct edge. -/
def directPairReasons (g : DependencyGraph) (nodeIds : List String) : List String :=
  (listPairs nodeIds).filterMap (fun p =>
    if hasDirectEdge g p.1 p.2 then
      some ("Direct dependency between " ++ p.1 ++ " and " ++ p.2)
    else none)

/-- The fallback reason string of `findCouplingReason`. -/
def noCouplingMsg : String := "No direct coupling found between the selected nodes"

/-- Model of `findCouplingReason(nodeIds)` (lines 114-187). -/
def findCouplingReason (g : DependencyGraph) (nodeIds : List String) : CouplingResult :=
  if nodeIds.length < 2 then
    { nodes := nodeIds
      sharedDependencies := []
      couplingStrength := 0
      reasons := ["Need at least 2 nodes to analyze coupling"] }
  else
    let sharedDeps := sharedDependencies g nodeIds
    let sharedDepts := sharedDependents g nodeIds
    let totalConnections := sharedDeps.length + sharedDepts.length
    let maxPossible := g.nodes.length
    let couplingStrength : ℚ :=
      if maxPossible > 0 then (totalConnections : ℚ) / (maxPossible : ℚ) else 0
    let reasons₁ :=
      if sharedDeps.length > 0 then
        ["Shared dependencies: " ++
          String.intercalate ", " (sharedDeps.map (fun n => n.name))]
      else []
    let reasons₂ :=
      if sharedDepts.length > 0 then
        ["Common dependents: " ++
          String.intercalate ", " (sharedDepts.map (fun id =>
            match findNode g id with
            | some n => n.name
            | none => id))]
      else []
    let reasons := reasons₁ ++ reasons₂ ++ directPairReasons g nodeIds
    { nodes := nodeIds
      sharedDependencies := sharedDeps
      couplingStrength := couplingStrength
      reasons := if reasons.length = 0 then [noCouplingMsg] else reasons }

/-! ### detectCycles (lines 192-235) -/

/-- The mutable state of the cycle-detection DFS: `visited`, the recursion
stack `recStack`, the current `path`, and the collected `cycles`. -/
structure DfsState where
  visited : List String
  recStack : List String
  path : List String
  cycles : List (List GraphNode)
deriving Repr

/-- The back-edge branch of the DFS: materialize the sub-path from the
revisited node's position to the top of the path, map ids to nodes
(dropping ids with no node), and append if non-empty.  (`neighbor` is
always on `path` here, since `recStack ⊆ path` is an invariant of the
traversal.) -/
def pushCycle (g : DependencyGraph) (neighbor : String) (st : DfsState) : DfsState :=
  let cycleIds := st.path.drop (st.path.indexOf neighbor)
  let cycleNodes := cycleIds.filterMap (fun id => findNode g id)
  if cycleNodes.length > 0 then { st with cycles := st.cycles ++ [cycleNodes] }
  else st

/-- The `for (const neighbor of neighbors)` loop of the DFS; `step` is the
recursive call on an unvisited neighbor. -/
def dfsNeighbors (g : DependencyGraph) (step : String → DfsState → DfsState) :
    List String → DfsState → DfsState
  | [], st => st
  | n :: rest, st =>
    let st' :=
      if st.visited.contains n then
        if st.recStack.contains n then pushCycle g n st else st
      else step n st
    dfsNeighbors g step rest st'

/-- The recursive `dfs(nodeId)` of `detectCycles`, with fuel (nesting depth
is bounded by `traversalFuel`: each nested call is on an unvisited id and
marks it visited, and all ids come from nodes and edge endpoints). -/
def dfs (g : DependencyGraph) : Nat → String → DfsState → DfsState
  | 0, _, st => st
  | fuel + 1, nodeId, st =>
    let st1 : DfsState :=
      { st with
        visited := st.visited ++ [nodeId]
        recStack := st.recStack ++ [nodeId]
        path := st.path ++ [nodeId] }
    let st2 := dfsNeighbors g (dfs g fuel) (forwardAdj g nodeId) st1
    { st2 with
      path := st2.path.dropLast
      recStack := st2.recStack.erase nodeId }

/-- Model of `detectCycles()` (lines 192-235). -/
def detectCycles (g : DependencyGraph) : CycleResult :=
  let final := g.nodes.foldl
    (fun st node =>
      if st.visited.contains node.id then st
      else dfs g (traversalFuel g) node.id st)
    { visited := [], recStack := [], path := [], cycles := [] }
  { cycles := final.cycles
    severity := if final.cycles.length > 0 then "error" else "warning" }

/-! ## Derived notions used to state the claims -/

/-- The facts list in which every fact is duplicated once. -/
def dupEach {α : Type} (l : List α) : List α :=
  l.flatMap (fun d => [d, d])

/-- Whether `acc` already holds a node with the given id (the
`nodesMap.has` test of the builder). -/
def hasNodeId (acc : List GraphNode) (id : String) : Bool :=
  acc.any (fun n => n.id == id)

/-- Node ids are pairwise distinct. -/
def NodeIdsNodup (g : DependencyGraph) : Prop :=
  (g.nodes.map (fun n => n.id)).Nodup

/-- Edge ids are pairwise distinct. -/
def EdgeIdsNodup (g : DependencyGraph) : Prop :=
  (g.edges.map (fun e => e.id)).Nodup

/-- The graph invariants of spec §3: referential integrity, unique node
ids, unique edge ids. -/
def GraphInvariants (g : DependencyGraph) : Prop :=
  EdgesWellFormed g ∧ NodeIdsNodup g ∧ EdgeIdsNodup g

instance (g : DependencyGraph) : Decidable (NodeIdsNodup g) := by
  unfold NodeIdsNodup; exact List.nodupDecidable _

instance (g : DependencyGraph) : Decidable (EdgeIdsNodup g) := by
  unfold EdgeIdsNodup; exact List.nodupDecidable _

instance (g : DependencyGraph) : Decidable (GraphInvariants g) := by
  unfold GraphInvariants; exact instDecidableAnd

/-! ## Concrete example graphs used by witnesses and counterexamples -/

/-- A docker-kind node, as `buildGraph` would create it. -/
def exNode (i : String) : GraphNode := createNode i "docker_depends_on"

/-- A docker-kind edge with explicit id. -/
def exEdge (k : Nat) (s t : String) : GraphEdge :=
  { id := k, source := s, target := t, type := "docker_depends_on", metadata := none }

/-- Fixed graph metadata for examples. -/
def exMeta : GraphMetadata :=
  { createdAt := "t0", sourceType := "local", sourcePath := "p" }

/-- The empty graph. -/
def emptyGraph : DependencyGraph :=
  { id := 0, name := "empty", nodes := [], edges := [], metadata := exMeta }

/-- Two nodes, one edge `b → a`: blast radius of `a` affects exactly `b`,
so the impact ratio is exactly 1/2. -/
def gBoundary : DependencyGraph :=
  { id := 0, name := "boundary", nodes := [exNode "a", exNode "b"],
    edges := [exEdge 0 "b" "a"], metadata := exMeta }

/-- Two isolated nodes: disjoint closures, no direct edge. -/
def gIsolated : DependencyGraph :=
  { id := 0, name := "isolated", nodes := [exNode "a", exNode "b"],
    edges := [], metadata := exMeta }

/-- The three-cycle `a → b → c → a` of spec §8 (all `docker_depends_on`). -/
def gCycle3 : DependencyGraph :=
  { id := 0, name := "cycle3", nodes := [exNode "a", exNode "b", exNode "c"],
    edges := [exEdge 0 "a" "b", exEdge 1 "b" "c", exEdge 2 "c" "a"],
    metadata := exMeta }

/-- A graph violating referential integrity: node `a` only, but an edge
`a → b` whose target `b` is not a node. -/
def gDangling : DependencyGraph :=
  { id := 0, name := "dangling", nodes := [exNode "a"],
    edges := [exEdge 0 "a" "b"], metadata := exMeta }

/-- A graph with zero nodes but one (dangling) edge `a → b`. -/
def gZeroNodes : DependencyGraph :=
  { id := 0, name := "zero", nodes := [],
    edges := [exEdge 0 "a" "b"], metadata := exMeta }

/-- First input of the merge edge-id collision counterexample: edge id 5
on `a → b`. -/
def gMergeL : DependencyGraph :=
  { id := 0, name := "l", nodes := [exNode "a", exNode "b"],
    edges := [exEdge 5 "a" "b"], metadata := exMeta }

/-- Second input of the merge edge-id collision counterexample: the same
edge id 5 on a different edge `a → c`, so `(source, target, kind)` dedup
keeps both edges. -/
def gMergeR : DependencyGraph :=
  { id := 0, name := "r", nodes := [exNode "a", exNode "c"],
    edges := [exEdge 5 "a" "c"], metadata := exMeta }

/-! ## Theorems -/

/-- C4: `inferNodeType` follows exactly the priority-ordered first-match
rules of spec §4.1 (k8s prefixes first, then the case-sensitive unanchored
terraform substring checks, then docker/npm/codeowner kinds, default
`unknown`); in particular a `Service/`-prefixed id wins over the
`terraform_resource` kind rules, and a `terraform_resource` id `mydbthing`
matches the `db` substring and maps to `database`. -/
theorem inferNodeType_matches_spec_rules :
    (∀ id kind, inferNodeType id kind = specNodeType id kind) ∧
    inferNodeType "Service/x" "terraform_resource" = "k8s_service" ∧
    inferNodeType "mydbthing" "terraform_resource" = "database" := by
  refine ⟨fun id kind => ?_, by decide, by decide⟩
  unfold inferNodeType specNodeType
  by_cases h1 : strStartsWith id "Deployment/" = true
  · simp [h1]
  by_cases h2 : strStartsWith id "StatefulSet/" = true
  · simp [h1, h2]
  by_cases h3 : strStartsWith id "DaemonSet/" = true
  · simp [h1, h2, h3]
  by_cases h4 : strStartsWith id "Service/" = true
  · simp [h1, h2, h3, h4]
  by_cases h5 : strStartsWith id "ConfigMap/" = true
  · simp [h1, h2, h3, h4, h5]
  by_cases h6 : strStartsWith id "Secret/" = true
  · simp [h1, h2, h3, h4, h5, h6]
  by_cases k1 : (kind == "terraform_resource") = true
  · by_cases c1 : strContains id "db" = true
    · simp [h1, h2, h3, h4, h5, h6, k1, c1]
    by_cases c2 : strContains id "rds" = true
    · simp [h1, h2, h3, h4, h5, h6, k1, c1, c2]
    by_cases c3 : strContains id "database" = true
    · simp [h1, h2, h3, h4, h5, h6, k1, c1, c2, c3]
    by_cases c4 : strContains id "queue" = true
    · simp [h1, h2, h3, h4, h5, h6, k1, c1, c2, c3, c4]
    by_cases c5 : strContains id "sqs" = true
    · simp [h1, h2, h3, h4, h5, h6, k1, c1, c2, c3, c4, c5]
    by_cases c6 : strContains id "sns" = true
    · simp [h1, h2, h3, h4, h5, h6, k1, c1, c2, c3, c4, c5, c6]
    simp [h1, h2, h3, h4, h5, h6, k1, c1, c2, c3, c4, c5, c6]
  by_cases k2 : (kind == "docker_depends_on") = true
  · simp [h1, h2, h3, h4, h5, h6, k1, k2]
  by_cases k3 : (kind == "docker_network") = true
  · simp [h1, h2, h3, h4, h5, h6, k1, k2, k3]
  by_cases k4 : (kind == "npm_dependency") = true
  · simp [h1, h2, h3, h4, h5, h6, k1, k2, k3, k4]
  by_cases k5 : (kind == "npm_devDependency") = true
  · simp [h1, h2, h3, h4, h5, h6, k1, k2, k3, k4, k5]
  by_cases k6 : (kind == "codeowner") = true
  · simp [h1, h2, h3, h4, h5, h6, k1, k2, k3, k4, k5, k6]
  simp [h1, h2, h3, h4, h5, h6, k1, k2, k3, k4, k5, k6]

/-- C7: with fewer than two node ids, `findCouplingReason` returns the
defined degenerate result (the input ids, no shared dependencies, zero
coupling strength, and the single "Need at least 2 nodes" reason) rather
than an error. -/
theorem findCouplingReason_degenerate (g : DependencyGraph)
    (nodeIds : List String) (h : nodeIds.length < 2) :
    findCouplingReason g nodeIds =
      { nodes := nodeIds
        sharedDependencies := []
        couplingStrength := 0
        reasons := ["Need at least 2 nodes to analyze coupling"] } := by
  unfold findCouplingReason
  rw [if_pos h]

/-- Witness for C7 at the empty id list on the empty graph. -/
theorem findCouplingReason_degenerate_witness :
    ([] : List String).length < 2 ∧
    findCouplingReason emptyGraph [] =
      { nodes := []
        sharedDependencies := []
        couplingStrength := 0
        reasons := ["Need at least 2 nodes to analyze coupling"] } :=
  ⟨by decide, findCouplingReason_degenerate emptyGraph [] (by decide)⟩

/-- The impact-level if-chain, characterized by integer comparisons on the
affected count `a` and the total count `t` (for `t > 0`). -/
theorem impactLevelOf_char (a t : Nat) (ht : 0 < t) :
    (impactLevelOf ((a : ℚ) / (t : ℚ)) = "critical" ↔ t < 2 * a) ∧
    (impactLevelOf ((a : ℚ) / (t : ℚ)) = "high" ↔ t < 4 * a ∧ 2 * a ≤ t) ∧
    (impactLevelOf ((a : ℚ) / (t : ℚ)) = "medium" ↔ t < 10 * a ∧ 4 * a ≤ t) ∧
    (impactLevelOf ((a : ℚ) / (t : ℚ)) = "low" ↔ 10 * a ≤ t) := by
  have ht' : (0 : ℚ) < (t : ℚ) := by exact_mod_cast ht
  have key : ∀ c : ℚ, 0 < c → ((1 : ℚ) / c < (a : ℚ) / (t : ℚ) ↔ (t : ℚ) < c * a) := by
    intro c hc
    rw [div_lt_div_iff₀ hc ht']
    constructor
    · intro h; nlinarith
    · intro h; nlinarith
  have e1 : ((a : ℚ) / (t : ℚ) > 0.5) ↔ t < 2 * a := by
    rw [gt_iff_lt, show (0.5 : ℚ) = 1 / 2 by norm_num, key 2 (by norm_num)]
    constructor
    · intro h; exact_mod_cast h
    · intro h; exact_mod_cast h
  have e2 : ((a : ℚ) / (t : ℚ) > 0.25) ↔ t < 4 * a := by
    rw [gt_iff_lt, show (0.25 : ℚ) = 1 / 4 by norm_num, key 4 (by norm_num)]
    constructor
    · intro h; exact_mod_cast h
    · intro h; exact_mod_cast h
  have e3 : ((a : ℚ) / (t : ℚ) > 0.1) ↔ t < 10 * a := by
    rw [gt_iff_lt, show (0.1 : ℚ) = 1 / 10 by norm_num, key 10 (by norm_num)]
    constructor
    · intro h; exact_mod_cast h
    · intro h; exact_mod_cast h
  unfold impactLevelOf
  by_cases d1 : ((a : ℚ) / (t : ℚ) > 0.5)
  · have n1 : t < 2 * a := e1.mp d1
    simp only [if_pos d1]
    refine ⟨by simp [n1], ?_, ?_, ?_⟩ <;>
      · constructor
        · intro h; exact absurd h (by decide)
        · intro h; omega
  by_cases d2 : ((a : ℚ) / (t : ℚ) > 0.25)
  · have n1 : ¬ t < 2 * a := fun hlt => d1 (e1.mpr hlt)
    have n2 : t < 4 * a := e2.mp d2
    simp only [if_neg d1, if_pos d2]
    refine ⟨?_, by simp [n2]; omega, ?_, ?_⟩ <;>
      · constructor
        · intro h; exact absurd h (by decide)
        · intro h; omega
  by_cases d3 : ((a : ℚ) / (t : ℚ) > 0.1)
  · have n1 : ¬ t < 2 * a := fun hlt => d1 (e1.mpr hlt)
    have n2 : ¬ t < 4 * a := fun hlt => d2 (e2.mpr hlt)
    have n3 : t < 10 * a := e3.mp d3
    simp only [if_neg d1, if_neg d2, if_pos d3]
    refine ⟨?_, ?_, by simp [n3]; omega, ?_⟩ <;>
      · constructor
        · intro h; exact absurd h (by decide)
        · intro h; omega
  · have n1 : ¬ t < 2 * a := fun hlt => d1 (e1.mpr hlt)
    have n2 : ¬ t < 4 * a := fun hlt => d2 (e2.mpr hlt)
    have n3 : ¬ t < 10 * a := fun hlt => d3 (e3.mpr hlt)
    simp only [if_neg d1, if_neg d2, if_neg d3]
    refine ⟨?_, ?_, ?_, by simp; omega⟩ <;>
      · constructor
        · intro h; exact absurd h (by decide)
        · intro h; omega

/-- The impact level of `getBlastRadius` is the classification of the
affected-node count against the total node count. -/
theorem getBlastRadius_impactLevel (g : DependencyGraph) (nodeId : String) :
    (getBlastRadius g nodeId).impactLevel =
      impactLevelOf (((getBlastRadius g nodeId).affectedNodes.length : ℚ) /
        (g.nodes.length : ℚ)) := rfl

/-- C2: for a graph with at least one node, `getBlastRadius` classifies
`impactLevel` from `ratio = |affectedNodes| / |allNodes|` with strict
lower bounds: `critical` iff `ratio > 1/2`, `high` iff
`1/4 < ratio ≤ 1/2`, `medium` iff `1/10 < ratio ≤ 1/4`, `low` iff
`ratio ≤ 1/10` (stated by the equivalent integer comparisons); in
particular ratio exactly 1/2 gives `high`, exactly 1/4 gives `medium`,
and exactly 1/10 gives `low`. -/
theorem getBlastRadius_impact_classification (g : DependencyGraph)
    (nodeId : String) (h : 0 < g.nodes.length) :
    ((getBlastRadius g nodeId).impactLevel = "critical" ↔
      g.nodes.length < 2 * (getBlastRadius g nodeId).affectedNodes.length) ∧
    ((getBlastRadius g nodeId).impactLevel = "high" ↔
      g.nodes.length < 4 * (getBlastRadius g nodeId).affectedNodes.length ∧
      2 * (getBlastRadius g nodeId).affectedNodes.length ≤ g.nodes.length) ∧
    ((getBlastRadius g nodeId).impactLevel = "medium" ↔
      g.nodes.length < 10 * (getBlastRadius g nodeId).affectedNodes.length ∧
      4 * (getBlastRadius g nodeId).affectedNodes.length ≤ g.nodes.length) ∧
    ((getBlastRadius g nodeId).impactLevel = "low" ↔
      10 * (getBlastRadius g nodeId).affectedNodes.length ≤ g.nodes.length) ∧
    (2 * (getBlastRadius g nodeId).affectedNodes.length = g.nodes.length →
      (getBlastRadius g nodeId).impactLevel = "high") ∧
    (4 * (getBlastRadius g nodeId).affectedNodes.length = g.nodes.length →
      (getBlastRadius g nodeId).impactLevel = "medium") ∧
    (10 * (getBlastRadius g nodeId).affectedNodes.length = g.nodes.length →
      (getBlastRadius g nodeId).impactLevel = "low") := by
  have hc := impactLevelOf_char (getBlastRadius g nodeId).affectedNodes.length
    g.nodes.length h
  rw [getBlastRadius_impactLevel]
  obtain ⟨hcrit, hhigh, hmed, hlow⟩ := hc
  refine ⟨hcrit, hhigh, hmed, hlow, ?_, ?_, ?_⟩
  · intro he
    apply hhigh.mpr
    constructor
    · have : 0 < (getBlastRadius g nodeId).affectedNodes.length := by omega
      omega
    · omega
  · intro he
    apply hmed.mpr
    constructor
    · have : 0 < (getBlastRadius g nodeId).affectedNodes.length := by omega
      omega
    · omega
  · intro he
    exact hlow.mpr (by omega)

/-- Witness for C2: in `gBoundary` the blast radius of `a` affects 1 of 2
nodes (ratio exactly 1/2), classified `high`, not `critical`. -/
theorem getBlastRadius_impact_classification_witness :
    0 < gBoundary.nodes.length ∧
    (getBlastRadius gBoundary "a").impactLevel = "high" := by
  refine ⟨by decide, ?_⟩
  have hc := getBlastRadius_impact_classification gBoundary "a" (by decide)
  exact hc.2.2.2.2.1 (by decide)

/-! ### Builder lemmas -/

theorem dupEach_cons {α : Type} (d : α) (rest : List α) :
    dupEach (d :: rest) = d :: d :: dupEach rest := rfl

/-- Folding an idempotent step over a list with every element duplicated
equals folding over the original list. -/
theorem foldl_dupEach {α β : Type} (f : β → α → β)
    (hf : ∀ b a, f (f b a) a = f b a) :
    ∀ (l : List α) (b : β), (dupEach l).foldl f b = l.foldl f b := by
  intro l
  induction l with
  | nil => intro b; rfl
  | cons d rest ih =>
    intro b
    rw [dupEach_cons]
    show (dupEach rest).foldl f (f (f b d) d) = rest.foldl f (f b d)
    rw [hf]
    exact ih (f b d)

theorem hasNodeId_addNode_self (acc : List GraphNode) (id t : String) :
    hasNodeId (addNode acc id t) id = true := by
  unfold addNode
  by_cases h : acc.any (fun n => n.id == id) = true
  · rw [if_pos h]; exact h
  · rw [if_neg h]
    unfold hasNodeId
    simp [createNode]

theorem hasNodeId_addNode_mono (acc : List GraphNode) (id t x : String)
    (h : hasNodeId acc x = true) :
    hasNodeId (addNode acc id t) x = true := by
  unfold addNode
  by_cases hc : acc.any (fun n => n.id == id) = true
  · rw [if_pos hc]; exact h
  · rw [if_neg hc]
    unfold hasNodeId at h ⊢
    simp only [List.any_append, h, Bool.true_or]

theorem addNode_of_present (acc : List GraphNode) (id t : String)
    (h : hasNodeId acc id = true) :
    addNode acc id t = acc := by
  unfold addNode
  unfold hasNodeId at h
  rw [if_pos h]

/-- After one node-pass step, the fact's source id is present. -/
theorem buildNodeStep_has_source (acc : List GraphNode) (d : ParsedDependency) :
    hasNodeId (buildNodeStep acc d) d.source = true :=
  hasNodeId_addNode_mono _ _ _ _ (hasNodeId_addNode_self acc d.source d.type)

/-- After one node-pass step, the fact's target id is present. -/
theorem buildNodeStep_has_target (acc : List GraphNode) (d : ParsedDependency) :
    hasNodeId (buildNodeStep acc d) d.target = true :=
  hasNodeId_addNode_self _ d.target d.type

/-- One `buildGraph` node-pass step is idempotent. -/
theorem nodeStep_idem (acc : List GraphNode) (d : ParsedDependency) :
    buildNodeStep (buildNodeStep acc d) d = buildNodeStep acc d := by
  unfold buildNodeStep
  have hs : hasNodeId (buildNodeStep acc d) d.source = true :=
    buildNodeStep_has_source acc d
  unfold buildNodeStep at hs
  rw [addNode_of_present _ _ _ hs]
  exact addNode_of_present _ _ _ (hasNodeId_addNode_self _ d.target d.type)

theorem addEdge_of_contains (acc : EdgeAcc) (d : ParsedDependency)
    (h : acc.keys.contains (edgeKey d.source d.target d.type) = true) :
    addEdge acc d = acc := by
  unfold addEdge
  rw [if_pos h]

theorem addEdge_contains_self (acc : EdgeAcc) (d : ParsedDependency) :
    (addEdge acc d).keys.contains (edgeKey d.source d.target d.type) = true := by
  unfold addEdge
  by_cases h : acc.keys.contains (edgeKey d.source d.target d.type) = true
  · rw [if_pos h]; exact h
  · rw [if_neg h]
    simp

/-- One `buildGraph` edge-pass step is idempotent. -/
theorem edgeStep_idem (acc : EdgeAcc) (d : ParsedDependency) :
    addEdge (addEdge acc d) d = addEdge acc d :=
  addEdge_of_contains _ _ (addEdge_contains_self acc d)

/-- C5: a facts list with every fact duplicated once builds the same node
list (ids, display names, types, metadata) and the same edge set
(source/target/kind triples with their first-occurrence metadata) as the
original list: nodes are deduplicated by id keeping the first-created
node, edges by the `(source, target, kind)` key keeping the metadata of
the first occurrence. -/
theorem buildGraph_dedup_idempotent (deps : List ParsedDependency)
    (opts : BuildGraphOptions) (createdAt : String) :
    (buildGraph (dupEach deps) opts createdAt).nodes =
      (buildGraph deps opts createdAt).nodes ∧
    (buildGraph (dupEach deps) opts createdAt).edges.map
        (fun e => (e.source, e.target, e.type, e.metadata)) =
      (buildGraph deps opts createdAt).edges.map
        (fun e => (e.source, e.target, e.type, e.metadata)) := by
  have hn : collectNodes (dupEach deps) = collectNodes deps := by
    unfold collectNodes
    exact foldl_dupEach buildNodeStep (fun acc d => nodeStep_idem acc d) deps []
  have he : collectEdges (dupEach deps) = collectEdges deps := by
    unfold collectEdges
    exact foldl_dupEach addEdge (fun acc d => edgeStep_idem acc d) deps _
  constructor
  · exact hn
  · show (collectEdges (dupEach deps)).edges.map _ =
      (collectEdges deps).edges.map _
    rw [he]

/-! ### buildGraph invariants (for C8) -/

theorem hasNodeId_iff (acc : List GraphNode) (x : String) :
    hasNodeId acc x = true ↔ ∃ n ∈ acc, n.id = x := by
  unfold hasNodeId
  simp [List.any_eq_true]

theorem foldl_buildNodeStep_mono (deps : List ParsedDependency) :
    ∀ (acc : List GraphNode) (x : String), hasNodeId acc x = true →
      hasNodeId (deps.foldl buildNodeStep acc) x = true := by
  induction deps with
  | nil => intro acc x h; exact h
  | cons d rest ih =>
    intro acc x h
    exact ih (buildNodeStep acc d) x
      (hasNodeId_addNode_mono _ _ _ _ (hasNodeId_addNode_mono _ _ _ _ h))

theorem foldl_buildNodeStep_has (deps : List ParsedDependency) :
    ∀ (acc : List GraphNode) (d : ParsedDependency), d ∈ deps →
      hasNodeId (deps.foldl buildNodeStep acc) d.source = true ∧
      hasNodeId (deps.foldl buildNodeStep acc) d.target = true := by
  induction deps with
  | nil => intro acc d h; cases h
  | cons d' rest ih =>
    intro acc d h
    rcases List.mem_cons.mp h with he | hm
    · subst he
      constructor
      · exact foldl_buildNodeStep_mono rest _ _ (buildNodeStep_has_source acc d)
      · exact foldl_buildNodeStep_mono rest _ _ (buildNodeStep_has_target acc d)
    · exact ih (buildNodeStep acc d') d hm

/-- Every edge emitted by the second pass is either inherited from the
accumulator or carries the source/target/type of some input fact. -/
theorem foldl_addEdge_from (deps : List ParsedDependency) :
    ∀ (acc : EdgeAcc) (e : GraphEdge), e ∈ (deps.foldl addEdge acc).edges →
      e ∈ acc.edges ∨ ∃ d ∈ deps, e.source = d.source ∧ e.target = d.target := by
  induction deps with
  | nil => intro acc e h; exact Or.inl h
  | cons d rest ih =>
    intro acc e h
    rcases ih (addEdge acc d) e h with hacc | ⟨d', hd', hs, ht⟩
    · unfold addEdge at hacc
      by_cases hc : acc.keys.contains (edgeKey d.source d.target d.type) = true
      · rw [if_pos hc] at hacc
        exact Or.inl hacc
      · rw [if_neg hc] at hacc
        rcases List.mem_append.mp hacc with h1 | h2
        · exact Or.inl h1
        · rcases List.mem_singleton.mp h2 with he
          subst he
          exact Or.inr ⟨d, List.mem_cons_self d rest, rfl, rfl⟩
    · exact Or.inr ⟨d', List.mem_cons_of_mem d hd', hs, ht⟩

/-- Nodup of node ids is preserved by `addNode`. -/
theorem addNode_nodupIds (acc : List GraphNode) (id t : String)
    (h : (acc.map (fun n => n.id)).Nodup) :
    ((addNode acc id t).map (fun n => n.id)).Nodup := by
  unfold addNode
  by_cases hc : acc.any (fun n => n.id == id) = true
  · rw [if_pos hc]; exact h
  · rw [if_neg hc]
    have habs : id ∉ acc.map (fun n => n.id) := by
      intro hmem
      apply hc
      rcases List.mem_map.mp hmem with ⟨n, hn, hid⟩
      exact (hasNodeId_iff acc id).mpr ⟨n, hn, hid⟩
    rw [List.map_append]
    rw [List.nodup_append]
    refine ⟨h, by simp [createNode], ?_⟩
    intro x hx
    simp only [List.map_cons, List.map_nil, createNode, List.mem_singleton]
    intro he
    subst he
    exact habs hx

theorem foldl_buildNodeStep_nodupIds (deps : List ParsedDependency) :
    ∀ (acc : List GraphNode), (acc.map (fun n => n.id)).Nodup →
      ((deps.foldl buildNodeStep acc).map (fun n => n.id)).Nodup := by
  induction deps with
  | nil => intro acc h; exact h
  | cons d rest ih =>
    intro acc h
    exact ih _ (addNode_nodupIds _ _ _ (addNode_nodupIds _ _ _ h))

/-- Invariant of the edge pass: edge ids are distinct and below the
counter. -/
def EdgeAccInv (acc : EdgeAcc) : Prop :=
  (acc.edges.map (fun e => e.id)).Nodup ∧
  ∀ k ∈ acc.edges.map (fun e => e.id), k < acc.counter

theorem addEdge_inv (acc : EdgeAcc) (d : ParsedDependency)
    (h : EdgeAccInv acc) : EdgeAccInv (addEdge acc d) := by
  unfold addEdge
  by_cases hc : acc.keys.contains (edgeKey d.source d.target d.type) = true
  · rw [if_pos hc]; exact h
  · rw [if_neg hc]
    obtain ⟨hnd, hlt⟩ := h
    constructor
    · rw [List.map_append, List.nodup_append]
      refine ⟨hnd, by simp, ?_⟩
      intro x hx
      simp only [List.map_cons, List.map_nil, List.mem_singleton]
      intro he
      subst he
      exact absurd (hlt _ hx) (lt_irrefl _)
    · intro k hk
      rw [List.map_append] at hk
      rcases List.mem_append.mp hk with h1 | h2
      · exact Nat.lt_succ_of_lt (hlt _ h1)
      · simp only [List.map_cons, List.map_nil, List.mem_singleton] at h2
        subst h2
        exact Nat.lt_succ_self _

theorem foldl_addEdge_inv (deps : List ParsedDependency) :
    ∀ (acc : EdgeAcc), EdgeAccInv acc → EdgeAccInv (deps.foldl addEdge acc) := by
  induction deps with
  | nil => intro acc h; exact h
  | cons d rest ih => intro acc h; exact ih _ (addEdge_inv acc d h)

/-- The `buildGraph` output satisfies all three graph invariants. -/
theorem buildGraph_invariants (deps : List ParsedDependency)
    (opts : BuildGraphOptions) (createdAt : String) :
    GraphInvariants (buildGraph deps opts createdAt) := by
  refine ⟨?_, ?_, ?_⟩
  · intro e he
    have hfrom := foldl_addEdge_from deps { edges := [], keys := [], counter := 0 } e he
    rcases hfrom with h0 | ⟨d, hd, hs, ht⟩
    · cases h0
    · have hhas := foldl_buildNodeStep_has deps [] d hd
      constructor
      · rw [hs]
        exact (hasNodeId_iff _ _).mp hhas.1
      · rw [ht]
        exact (hasNodeId_iff _ _).mp hhas.2
  · exact foldl_buildNodeStep_nodupIds deps [] List.nodup_nil
  · exact (foldl_addEdge_inv deps { edges := [], keys := [], counter := 0 }
      ⟨List.nodup_nil, by intro k hk; cases hk⟩).1

/-! ### mergeGraphs invariants (for C8) -/

theorem hasNodeId_mergeAddNode_self (acc : List GraphNode) (n : GraphNode) :
    hasNodeId (mergeAddNode acc n) n.id = true := by
  unfold mergeAddNode
  by_cases h : acc.any (fun m => m.id == n.id) = true
  · rw [if_pos h]; exact h
  · rw [if_neg h]
    unfold hasNodeId
    simp

theorem hasNodeId_mergeAddNode_mono (acc : List GraphNode) (n : GraphNode)
    (x : String) (h : hasNodeId acc x = true) :
    hasNodeId (mergeAddNode acc n) x = true := by
  unfold mergeAddNode
  by_cases hc : acc.any (fun m => m.id == n.id) = true
  · rw [if_pos hc]; exact h
  · rw [if_neg hc]
    unfold hasNodeId at h ⊢
    simp only [List.any_append, h, Bool.true_or]

theorem foldl_mergeAddNode_mono (nodes : List GraphNode) :
    ∀ (acc : List GraphNode) (x : String), hasNodeId acc x = true →
      hasNodeId (nodes.foldl mergeAddNode acc) x = true := by
  induction nodes with
  | nil => intro acc x h; exact h
  | cons n rest ih =>
    intro acc x h
    exact ih _ x (hasNodeId_mergeAddNode_mono acc n x h)

theorem foldl_mergeAddNode_has (nodes : List GraphNode) :
    ∀ (acc : List GraphNode) (n : GraphNode), n ∈ nodes →
      hasNodeId (nodes.foldl mergeAddNode acc) n.id = true := by
  induction nodes with
  | nil => intro acc n h; cases h
  | cons n' rest ih =>
    intro acc n h
    rcases List.mem_cons.mp h with he | hm
    · subst he
      exact foldl_mergeAddNode_mono rest _ _ (hasNodeId_mergeAddNode_self acc n)
    · exact ih _ n hm

/-- The merged node list: the node-collection fold of `mergeGraphs`. -/
def mergeNodes (graphs : List DependencyGraph) : List GraphNode :=
  graphs.foldl (fun (acc : List GraphNode) (g : DependencyGraph) =>
    g.nodes.foldl mergeAddNode acc) []

theorem mergeNodes_mono (graphs : List DependencyGraph) :
    ∀ (acc : List GraphNode) (x : String), hasNodeId acc x = true →
      hasNodeId (graphs.foldl (fun (acc : List GraphNode) (g : DependencyGraph) =>
        g.nodes.foldl mergeAddNode acc) acc) x = true := by
  induction graphs with
  | nil => intro acc x h; exact h
  | cons g rest ih =>
    intro acc x h
    exact ih _ x (foldl_mergeAddNode_mono g.nodes acc x h)

theorem mergeNodes_has (graphs : List DependencyGraph) :
    ∀ (acc : List GraphNode) (g : DependencyGraph) (n : GraphNode),
      g ∈ graphs → n ∈ g.nodes →
      hasNodeId (graphs.foldl (fun (acc : List GraphNode) (g : DependencyGraph) =>
        g.nodes.foldl mergeAddNode acc) acc) n.id = true := by
  induction graphs with
  | nil => intro acc g n h; cases h
  | cons g' rest ih =>
    intro acc g n hg hn
    rcases List.mem_cons.mp hg with he | hm
    · subst he
      exact mergeNodes_mono rest _ _ (foldl_mergeAddNode_has g.nodes acc n hn)
    · exact ih _ g n hm hn

theorem mergeAddNode_nodupIds (acc : List GraphNode) (n : GraphNode)
    (h : (acc.map (fun m => m.id)).Nodup) :
    ((mergeAddNode acc n).map (fun m => m.id)).Nodup := by
  unfold mergeAddNode
  by_cases hc : acc.any (fun m => m.id == n.id) = true
  · rw [if_pos hc]; exact h
  · rw [if_neg hc]
    have habs : n.id ∉ acc.map (fun m => m.id) := by
      intro hmem
      apply hc
      rcases List.mem_map.mp hmem with ⟨m, hm, hid⟩
      exact (hasNodeId_iff acc n.id).mpr ⟨m, hm, hid⟩
    rw [List.map_append, List.nodup_append]
    refine ⟨h, by simp, ?_⟩
    intro x hx
    simp only [List.map_cons, List.map_nil, List.mem_singleton]
    intro he
    subst he
    exact habs hx

theorem foldl_mergeAddNode_nodupIds (nodes : List GraphNode) :
    ∀ (acc : List GraphNode), (acc.map (fun m => m.id)).Nodup →
      ((nodes.foldl mergeAddNode acc).map (fun m => m.id)).Nodup := by
  induction nodes with
  | nil => intro acc h; exact h
  | cons n rest ih => intro acc h; exact ih _ (mergeAddNode_nodupIds acc n h)

theorem mergeNodes_nodupIds (graphs : List DependencyGraph) :
    ∀ (acc : List GraphNode), (acc.map (fun m => m.id)).Nodup →
      ((graphs.foldl (fun (acc : List GraphNode) (g : DependencyGraph) =>
        g.nodes.foldl mergeAddNode acc) acc).map (fun m => m.id)).Nodup := by
  induction graphs with
  | nil => intro acc h; exact h
  | cons g rest ih =>
    intro acc h
    exact ih _ (foldl_mergeAddNode_nodupIds g.nodes acc h)

/-- The edge fold of one graph appends a subsequence of that graph's
edges. -/
theorem foldl_mergeAddEdge_decomp (l : List GraphEdge) :
    ∀ (acc : MergeEdgeAcc), ∃ sel,
      (l.foldl mergeAddEdge acc).edges = acc.edges ++ sel ∧ sel.Sublist l := by
  induction l with
  | nil => intro acc; exact ⟨[], by simp, List.nil_sublist []⟩
  | cons e rest ih =>
    intro acc
    rw [List.foldl_cons]
    by_cases hc : acc.keys.contains (edgeKey e.source e.target e.type) = true
    · rw [show mergeAddEdge acc e = acc from by unfold mergeAddEdge; rw [if_pos hc]]
      obtain ⟨sel, hsel, hsub⟩ := ih acc
      exact ⟨sel, hsel, hsub.trans (List.sublist_cons_self e rest)⟩
    · rw [show mergeAddEdge acc e =
          { edges := acc.edges ++ [e],
            keys := acc.keys ++ [edgeKey e.source e.target e.type] } from by
        unfold mergeAddEdge; rw [if_neg hc]]
      obtain ⟨sel, hsel, hsub⟩ := ih
        { edges := acc.edges ++ [e],
          keys := acc.keys ++ [edgeKey e.source e.target e.type] }
      refine ⟨e :: sel, ?_, List.Sublist.cons₂ e hsub⟩
      rw [hsel]
      simp

/-- The full merge edge fold appends a subsequence of the concatenation
of all input edge lists. -/
theorem merge_edges_decomp (graphs : List DependencyGraph) :
    ∀ (acc : MergeEdgeAcc), ∃ sel,
      (graphs.foldl (fun (acc : MergeEdgeAcc) (g : DependencyGraph) =>
        g.edges.foldl mergeAddEdge acc) acc).edges = acc.edges ++ sel ∧
      sel.Sublist (graphs.flatMap (fun g => g.edges)) := by
  induction graphs with
  | nil => intro acc; exact ⟨[], by simp, by simp⟩
  | cons g rest ih =>
    intro acc
    obtain ⟨s1, hs1, hsub1⟩ := foldl_mergeAddEdge_decomp g.edges acc
    obtain ⟨s2, hs2, hsub2⟩ := ih (g.edges.foldl mergeAddEdge acc)
    refine ⟨s1 ++ s2, ?_, ?_⟩
    · rw [List.foldl_cons, hs2, hs1, List.append_assoc]
    · rw [List.flatMap_cons]
      exact List.Sublist.append hsub1 hsub2

/-- C8 counterexample: two graphs that each satisfy all three invariants,
whose merge duplicates an edge id (the same generated id appears on two
different `(source, target, kind)` keys, so the key dedup keeps both). -/
theorem mergeGraphs_edge_id_collision :
    GraphInvariants gMergeL ∧ GraphInvariants gMergeR ∧
    ¬ EdgeIdsNodup (mergeGraphs [gMergeL, gMergeR] "m" "t0") := by
  refine ⟨by decide, by decide, by decide⟩

/-- C8 (amended): `buildGraph` output always satisfies referential
integrity, node-id uniqueness and edge-id uniqueness; given input graphs
that each satisfy the invariants, `mergeGraphs` preserves referential
integrity and node-id uniqueness, and it preserves edge-id uniqueness
under the additional hypothesis that edge ids are pairwise distinct
across all input graphs together (as uuid-generated ids are). -/
theorem graph_invariants_preserved :
    (∀ deps opts createdAt, GraphInvariants (buildGraph deps opts createdAt)) ∧
    (∀ (graphs : List DependencyGraph) (name createdAt : String),
      (∀ g ∈ graphs, GraphInvariants g) →
      EdgesWellFormed (mergeGraphs graphs name createdAt) ∧
      NodeIdsNodup (mergeGraphs graphs name createdAt) ∧
      (((graphs.flatMap (fun g => g.edges)).map (fun e => e.id)).Nodup →
        EdgeIdsNodup (mergeGraphs graphs name createdAt))) := by
  constructor
  · exact buildGraph_invariants
  · intro graphs name createdAt hinv
    obtain ⟨sel, hsel, hsub⟩ :=
      merge_edges_decomp graphs { edges := [], keys := [] }
    refine ⟨?_, ?_, ?_⟩
    · intro e he
      have he' : e ∈ sel := by
        have : (graphs.foldl (fun (acc : MergeEdgeAcc) (g : DependencyGraph) =>
            g.edges.foldl mergeAddEdge acc) { edges := [], keys := [] }).edges
            = sel := by
          rw [hsel]
          rfl
        rw [show (mergeGraphs graphs name createdAt).edges =
          (graphs.foldl (fun (acc : MergeEdgeAcc) (g : DependencyGraph) =>
            g.edges.foldl mergeAddEdge acc) { edges := [], keys := [] }).edges from rfl,
          this] at he
        exact he
      have hmem : e ∈ graphs.flatMap (fun g => g.edges) := hsub.mem he'
      rcases List.mem_flatMap.mp hmem with ⟨g, hg, heg⟩
      obtain ⟨⟨ns, hns, hs⟩, ⟨nt, hnt, ht⟩⟩ := (hinv g hg).1 e heg
      constructor
      · have := mergeNodes_has graphs [] g ns hg hns
        rcases (hasNodeId_iff _ _).mp this with ⟨m, hm, hmid⟩
        exact ⟨m, hm, by rw [hmid, hs]⟩
      · have := mergeNodes_has graphs [] g nt hg hnt
        rcases (hasNodeId_iff _ _).mp this with ⟨m, hm, hmid⟩
        exact ⟨m, hm, by rw [hmid, ht]⟩
    · exact mergeNodes_nodupIds graphs [] List.nodup_nil
    · intro hids
      show ((mergeGraphs graphs name createdAt).edges.map (fun e => e.id)).Nodup
      rw [show (mergeGraphs graphs name createdAt).edges =
        (graphs.foldl (fun (acc : MergeEdgeAcc) (g : DependencyGraph) =>
          g.edges.foldl mergeAddEdge acc) { edges := [], keys := [] }).edges from rfl,
        hsel]
      exact List.Nodup.sublist ((hsub.map (fun e => e.id))) hids

/-- Witness for C8 (amended): a concrete application at `[gMergeL]`. -/
theorem graph_invariants_preserved_witness :
    (∀ g ∈ [gMergeL], GraphInvariants g) ∧
    (([gMergeL].flatMap (fun g => g.edges)).map (fun e => e.id)).Nodup ∧
    EdgesWellFormed (mergeGraphs [gMergeL] "m" "t0") ∧
    NodeIdsNodup (mergeGraphs [gMergeL] "m" "t0") ∧
    EdgeIdsNodup (mergeGraphs [gMergeL] "m" "t0") := by
  have h := graph_invariants_preserved.2 [gMergeL] "m" "t0" (by decide)
  exact ⟨by decide, by decide, h.1, h.2.1, h.2.2 (by decide)⟩

/-! ### BFS correctness of getBlastRadius (for C1, C9, C10) -/

theorem mem_reverseAdj (g : DependencyGraph) (a b : String) :
    b ∈ reverseAdj g a ↔ RevStep g a b := by
  unfold reverseAdj RevStep
  simp [List.mem_filter]
  constructor
  · rintro ⟨e, ⟨he, ht⟩, hs⟩
    exact ⟨e, he, ht, hs⟩
  · rintro ⟨e, he, ht, hs⟩
    exact ⟨e, ⟨he, ht⟩, hs⟩

theorem reverseAdj_subset_sources (g : DependencyGraph) (a : String) :
    ∀ b ∈ reverseAdj g a, b ∈ (g.edges.map (fun e => e.source)).dedup := by
  intro b hb
  unfold reverseAdj at hb
  rcases List.mem_map.mp hb with ⟨e, he, hs⟩
  rw [List.mem_dedup]
  exact List.mem_map.mpr ⟨e, (List.mem_filter.mp he).1, hs⟩

/-- Decomposition of the inner BFS visiting loop: it appends the same list
of newly discovered ids to both the affected set and the queue; the new
ids are dependents not previously affected and distinct from the start;
and afterwards every visited dependent is the start or affected. -/
theorem bfsVisit_decomp (start : String) (deps : List String) :
    ∀ (affected queue : List String), ∃ new,
      bfsVisit start deps affected queue = (affected ++ new, queue ++ new) ∧
      (∀ b ∈ deps, b = start ∨ b ∈ affected ++ new) ∧
      (∀ y ∈ new, y ∈ deps ∧ y ∉ affected ∧ y ≠ start) ∧
      new.Nodup := by
  induction deps with
  | nil =>
    intro affected queue
    exact ⟨[], by simp [bfsVisit], by simp, by simp, List.nodup_nil⟩
  | cons dep rest ih =>
    intro affected queue
    by_cases hc : (affected.contains dep || dep == start) = true
    · obtain ⟨new, heq, h1, h2, h3⟩ := ih affected queue
      refine ⟨new, ?_, ?_,
        fun y hy => ⟨List.mem_cons_of_mem _ (h2 y hy).1, (h2 y hy).2⟩, h3⟩
      · show bfsVisit start (dep :: rest) affected queue = _
        unfold bfsVisit
        rw [if_pos hc]
        exact heq
      · intro b hb
        rcases List.mem_cons.mp hb with he | hm
        · subst he
          rcases Bool.or_eq_true_iff.mp hc with hmem | hbeq
          · exact Or.inr (List.mem_append_left _ (List.mem_of_elem_eq_true hmem))
          · exact Or.inl (by exact eq_of_beq hbeq)
        · exact h1 b hm
    · obtain ⟨new, heq, h1, h2, h3⟩ := ih (affected ++ [dep]) (queue ++ [dep])
      have hassoc : ∀ l : List String, (l ++ [dep]) ++ new = l ++ (dep :: new) := by
        intro l
        rw [List.append_assoc]
        rfl
      have hnotmem : dep ∉ affected := by
        intro hmem
        apply hc
        rw [Bool.or_eq_true_iff]
        exact Or.inl (List.elem_eq_true_of_mem hmem)
      have hnotstart : dep ≠ start := by
        intro he
        apply hc
        rw [Bool.or_eq_true_iff]
        exact Or.inr (by rw [he]; exact beq_self_eq_true start)
      refine ⟨dep :: new, ?_, ?_, ?_, ?_⟩
      · show bfsVisit start (dep :: rest) affected queue = _
        unfold bfsVisit
        rw [if_neg hc]
        rw [heq, hassoc, hassoc]
      · intro b hb
        rcases List.mem_cons.mp hb with he | hm
        · subst he
          exact Or.inr (List.mem_append_right _ (List.mem_cons_self _ _))
        · rcases h1 b hm with hs | hmem
          · exact Or.inl hs
          · rw [hassoc] at hmem
            exact Or.inr hmem
      · intro y hy
        rcases List.mem_cons.mp hy with he | hm
        · subst he
          exact ⟨List.mem_cons_self _ _, hnotmem, hnotstart⟩
        · obtain ⟨hyd, hyna, hyns⟩ := h2 y hm
          refine ⟨List.mem_cons_of_mem _ hyd, ?_, hyns⟩
          intro hmem
          exact hyna (List.mem_append_left _ hmem)
      · rw [List.nodup_cons]
        refine ⟨?_, h3⟩
        intro hmem
        exact (h2 dep hmem).2.1 (List.mem_append_right _ (List.mem_cons_self _ _))

/-- Soundness, closure and monotonicity of the BFS loop, given the loop
invariants and enough fuel (one unit per queue pop; every pushed id is a
fresh edge source, so the measure strictly decreases). -/
theorem bfsLoop_spec (g : DependencyGraph) (start : String) :
    ∀ (fuel : Nat) (affected queue : List String),
      (∀ y ∈ affected, DependsOn g start y ∧ y ≠ start) →
      (∀ q ∈ queue, q = start ∨ q ∈ affected) →
      (∀ a, (a = start ∨ a ∈ affected) → a ∉ queue →
        ∀ b ∈ reverseAdj g a, b = start ∨ b ∈ affected) →
      affected.Nodup →
      (∀ y ∈ affected, y ∈ (g.edges.map (fun e => e.source)).dedup) →
      ((g.edges.map (fun e => e.source)).dedup.length - affected.length)
          + queue.length ≤ fuel →
      (∀ y ∈ bfsLoop g start fuel affected queue,
        DependsOn g start y ∧ y ≠ start) ∧
      (∀ a, (a = start ∨ a ∈ bfsLoop g start fuel affected queue) →
        ∀ b ∈ reverseAdj g a, b = start ∨ b ∈ bfsLoop g start fuel affected queue) ∧
      (∀ y ∈ affected, y ∈ bfsLoop g start fuel affected queue) := by
  intro fuel
  induction fuel with
  | zero =>
    intro affected queue hA1 hA2 hA3 hA4 hA5 hm
    have hq : queue = [] := List.eq_nil_of_length_eq_zero (by omega)
    subst hq
    refine ⟨hA1, ?_, fun y hy => hy⟩
    intro a ha b hb
    exact hA3 a ha (by simp) b hb
  | succ fuel ih =>
    intro affected queue hA1 hA2 hA3 hA4 hA5 hm
    cases queue with
    | nil =>
      refine ⟨hA1, ?_, fun y hy => hy⟩
      intro a ha b hb
      exact hA3 a ha (by simp) b hb
    | cons current rest =>
      obtain ⟨new, heq, hN1, hN2, hN3⟩ :=
        bfsVisit_decomp start (reverseAdj g current) affected rest
      have hstep : bfsLoop g start (fuel + 1) affected (current :: rest) =
          bfsLoop g start fuel (affected ++ new) (rest ++ new) := by
        show bfsLoop g start fuel
          (bfsVisit start (reverseAdj g current) affected rest).1
          (bfsVisit start (reverseAdj g current) affected rest).2 = _
        rw [heq]
      have hcur : current = start ∨ current ∈ affected :=
        hA2 current (List.mem_cons_self _ _)
      have hB1 : ∀ y ∈ affected ++ new, DependsOn g start y ∧ y ≠ start := by
        intro y hy
        rcases List.mem_append.mp hy with hold | hnew
        · exact hA1 y hold
        · obtain ⟨hyd, _, hyns⟩ := hN2 y hnew
          have hrs : RevStep g current y := (mem_reverseAdj g current y).mp hyd
          rcases hcur with he | hmem
          · subst he
            exact ⟨Relation.TransGen.single hrs, hyns⟩
          · exact ⟨Relation.TransGen.tail (hA1 current hmem).1 hrs, hyns⟩
      have hB2 : ∀ q ∈ rest ++ new, q = start ∨ q ∈ affected ++ new := by
        intro q hq
        rcases List.mem_append.mp hq with hr | hn
        · rcases hA2 q (List.mem_cons_of_mem _ hr) with hs | hmem
          · exact Or.inl hs
          · exact Or.inr (List.mem_append_left _ hmem)
        · exact Or.inr (List.mem_append_right _ hn)
      have hB3 : ∀ a, (a = start ∨ a ∈ affected ++ new) → a ∉ rest ++ new →
          ∀ b ∈ reverseAdj g a, b = start ∨ b ∈ affected ++ new := by
        intro a ha hnq b hb
        by_cases hac : a = current
        · subst hac
          exact hN1 b hb
        · have ha' : a = start ∨ a ∈ affected := by
            rcases ha with hs | hmem
            · exact Or.inl hs
            · rcases List.mem_append.mp hmem with hold | hnew
              · exact Or.inr hold
              · exact absurd (List.mem_append_right _ hnew) hnq
          have hnq' : a ∉ current :: rest := by
            intro hmem
            rcases List.mem_cons.mp hmem with he | hr
            · exact hac he
            · exact hnq (List.mem_append_left _ hr)
          rcases hA3 a ha' hnq' b hb with hs | hmem
          · exact Or.inl hs
          · exact Or.inr (List.mem_append_left _ hmem)
      have hB4 : (affected ++ new).Nodup := by
        rw [List.nodup_append]
        refine ⟨hA4, hN3, ?_⟩
        intro x hx hxnew
        exact (hN2 x hxnew).2.1 hx
      have hB5 : ∀ y ∈ affected ++ new,
          y ∈ (g.edges.map (fun e => e.source)).dedup := by
        intro y hy
        rcases List.mem_append.mp hy with hold | hnew
        · exact hA5 y hold
        · exact reverseAdj_subset_sources g current y (hN2 y hnew).1
      have hlen : (affected ++ new).length ≤
          (g.edges.map (fun e => e.source)).dedup.length :=
        ((hB4.subperm (fun x hx => hB5 x hx)).length_le)
      have hm' : ((g.edges.map (fun e => e.source)).dedup.length
          - (affected ++ new).length) + (rest ++ new).length ≤ fuel := by
        rw [List.length_append, List.length_append]
        rw [List.length_append] at hlen
        simp only [List.length_cons] at hm
        omega
      rw [hstep]
      obtain ⟨hs, hc, hmono⟩ := ih (affected ++ new) (rest ++ new) hB1 hB2 hB3 hB4 hB5 hm'
      refine ⟨hs, hc, ?_⟩
      intro y hy
      exact hmono y (List.mem_append_left _ hy)

/-- The BFS-computed affected set is exactly the set of ids that
transitively depend on `nodeId`, with `nodeId` itself excluded. -/
theorem blastAffected_iff (g : DependencyGraph) (nodeId : String) :
    ∀ y, y ∈ blastAffected g nodeId ↔ DependsOn g nodeId y ∧ y ≠ nodeId := by
  have hmeasure : ((g.edges.map (fun e => e.source)).dedup.length
      - ([] : List String).length) + [nodeId].length ≤ g.edges.length + 1 := by
    have hs : (g.edges.map (fun e => e.source)).dedup.length ≤ g.edges.length := by
      have h1 := (List.dedup_sublist (g.edges.map (fun e => e.source))).length_le
      rw [List.length_map] at h1
      exact h1
    simp only [List.length_nil, List.length_cons, List.length_nil]
    omega
  obtain ⟨hsound, hclosed, _⟩ := bfsLoop_spec g nodeId (g.edges.length + 1) [] [nodeId]
    (by intro y hy; cases hy)
    (by intro q hq; exact Or.inl (List.mem_singleton.mp hq))
    (by
      intro a ha hnq b hb
      rcases ha with he | hmem
      · subst he
        exact absurd (List.mem_singleton.mpr rfl) hnq
      · cases hmem)
    List.nodup_nil
    (by intro y hy; cases hy)
    hmeasure
  intro y
  constructor
  · exact hsound y
  · rintro ⟨hdep, hne⟩
    have hall : ∀ z, DependsOn g nodeId z →
        z = nodeId ∨ z ∈ blastAffected g nodeId := by
      intro z hz
      induction hz with
      | single h =>
        exact hclosed nodeId (Or.inl rfl) _ ((mem_reverseAdj g nodeId _).mpr h)
      | tail h1 h2 ih =>
        exact hclosed _ ih _ ((mem_reverseAdj g _ _).mpr h2)
    rcases hall y hdep with he | hmem
    · exact absurd he hne
    · exact hmem

/-- C1: `getBlastRadius(nodeId).affectedNodes` is exactly the set of
graph nodes transitively reachable from `nodeId` over the reverse
adjacency (nodes that depend on `nodeId` directly or indirectly), with
`nodeId` itself excluded even when a cycle leads back to it; and
`affectedEdges` is exactly the set of edges whose source or target is in
that affected set, plus every edge whose target equals `nodeId`. -/
theorem getBlastRadius_characterization (g : DependencyGraph) (nodeId : String) :
    (∀ n, n ∈ (getBlastRadius g nodeId).affectedNodes ↔
      n ∈ g.nodes ∧ DependsOn g nodeId n.id ∧ n.id ≠ nodeId) ∧
    (∀ e, e ∈ (getBlastRadius g nodeId).affectedEdges ↔
      e ∈ g.edges ∧
        ((DependsOn g nodeId e.source ∧ e.source ≠ nodeId) ∨
          (DependsOn g nodeId e.target ∧ e.target ≠ nodeId) ∨
          e.target = nodeId)) := by
  have hiff := blastAffected_iff g nodeId
  constructor
  · intro n
    show n ∈ g.nodes.filter
      (fun n => (blastAffected g nodeId).contains n.id) ↔ _
    rw [List.mem_filter]
    constructor
    · rintro ⟨hn, hc⟩
      exact ⟨hn, (hiff n.id).mp (List.mem_of_elem_eq_true hc)⟩
    · rintro ⟨hn, hd⟩
      exact ⟨hn, List.elem_eq_true_of_mem ((hiff n.id).mpr hd)⟩
  · intro e
    show e ∈ g.edges.filter
      (fun e => (blastAffected g nodeId).contains e.source
        || (blastAffected g nodeId).contains e.target
        || (e.target == nodeId)) ↔ _
    rw [List.mem_filter]
    constructor
    · rintro ⟨he, hc⟩
      refine ⟨he, ?_⟩
      rcases Bool.or_eq_true_iff.mp hc with h12 | h3
      · rcases Bool.or_eq_true_iff.mp h12 with h1 | h2
        · exact Or.inl ((hiff e.source).mp (List.mem_of_elem_eq_true h1))
        · exact Or.inr (Or.inl ((hiff e.target).mp (List.mem_of_elem_eq_true h2)))
      · exact Or.inr (Or.inr (eq_of_beq h3))
    · rintro ⟨he, hd⟩
      refine ⟨he, ?_⟩
      rw [Bool.or_eq_true_iff, Bool.or_eq_true_iff]
      rcases hd with h1 | h2 | h3
      · exact Or.inl (Or.inl (List.elem_eq_true_of_mem ((hiff e.source).mpr h1)))
      · exact Or.inl (Or.inr (List.elem_eq_true_of_mem ((hiff e.target).mpr h2)))
      · exact Or.inr (by rw [h3]; exact beq_self_eq_true nodeId)

/-- C9 counterexample: in `gDangling` (node `a`, dangling edge `a → b`),
the id `b` is not a node id, yet `getBlastRadius "b")` returns non-empty
`affectedNodes` and `affectedEdges`, because the reverse adjacency index
also holds entries for edge targets that are not nodes. -/
theorem blast_missing_node_counterexample :
    (∀ n ∈ gDangling.nodes, n.id ≠ "b") ∧
    (getBlastRadius gDangling "b").affectedNodes ≠ [] ∧
    (getBlastRadius gDangling "b").affectedEdges ≠ [] := by
  exact ⟨by decide, by decide, by decide⟩

/-- C9 (amended): on a graph satisfying referential integrity (every
edge's source and target is a node id — the spec §3 invariant), a
`nodeId` that is not the id of any node yields empty `affectedNodes` and
empty `affectedEdges`, with no error. -/
theorem blast_missing_node_empty (g : DependencyGraph) (nodeId : String)
    (hwf : EdgesWellFormed g) (habs : ∀ n ∈ g.nodes, n.id ≠ nodeId) :
    (getBlastRadius g nodeId).affectedNodes = [] ∧
    (getBlastRadius g nodeId).affectedEdges = [] := by
  have hnostep : ∀ y, ¬ RevStep g nodeId y := by
    rintro y ⟨e, he, htgt, _⟩
    obtain ⟨_, nt, hnt, hid⟩ := hwf e he
    exact habs nt hnt (hid.trans htgt)
  have hnodep : ∀ y, ¬ DependsOn g nodeId y := by
    intro y hy
    induction hy with
    | single h => exact hnostep _ h
    | tail h1 h2 ih => exact ih
  have hempty : blastAffected g nodeId = [] := by
    rw [List.eq_nil_iff_forall_not_mem]
    intro y hy
    exact hnodep y ((blastAffected_iff g nodeId y).mp hy).1
  constructor
  · show g.nodes.filter (fun n => (blastAffected g nodeId).contains n.id) = []
    rw [hempty]
    exact List.filter_eq_nil_iff.mpr (fun n _ => by simp)
  · show g.edges.filter
      (fun e => (blastAffected g nodeId).contains e.source
        || (blastAffected g nodeId).contains e.target
        || (e.target == nodeId)) = []
    rw [hempty]
    refine List.filter_eq_nil_iff.mpr ?_
    intro e he
    obtain ⟨_, nt, hnt, hid⟩ := hwf e he
    have : (e.target == nodeId) = false := by
      rw [beq_eq_false_iff_ne]
      intro heq
      exact habs nt hnt (hid.trans heq)
    simp [this]

/-- Witness for C9 (amended) on `gBoundary` with the absent id `z`. -/
theorem blast_missing_node_empty_witness :
    EdgesWellFormed gBoundary ∧ (∀ n ∈ gBoundary.nodes, n.id ≠ "z") ∧
    (getBlastRadius gBoundary "z").affectedNodes = [] ∧
    (getBlastRadius gBoundary "z").affectedEdges = [] := by
  refine ⟨by decide, by decide, ?_⟩
  exact blast_missing_node_empty gBoundary "z" (by decide) (by decide)

/-- C10 counterexample: `gZeroNodes` has zero nodes but a dangling edge
`a → b`; `getBlastRadius "b"` returns that edge in `affectedEdges`
(its source `a` enters the affected id set), so the claimed "empty
affectedEdges" fails for zero-node graphs with edges. -/
theorem blast_zero_nodes_counterexample :
    gZeroNodes.nodes.length = 0 ∧
    (getBlastRadius gZeroNodes "b").affectedEdges ≠ [] := by
  exact ⟨by decide, by decide⟩

/-- C10 (amended): on a graph with zero nodes, `getBlastRadius` returns
`impactLevel = "low"` (the ratio `0 / 0` fails all three strict
threshold comparisons) and empty `affectedNodes`; `affectedEdges` is
also empty provided the graph satisfies referential integrity (which for
zero nodes forces an empty edge list). -/
theorem blast_zero_nodes_low (g : DependencyGraph) (nodeId : String)
    (h : g.nodes = []) :
    (getBlastRadius g nodeId).impactLevel = "low" ∧
    (getBlastRadius g nodeId).affectedNodes = [] ∧
    (EdgesWellFormed g → (getBlastRadius g nodeId).affectedEdges = []) := by
  have hnodes : (getBlastRadius g nodeId).affectedNodes = [] := by
    show g.nodes.filter (fun n => (blastAffected g nodeId).contains n.id) = []
    rw [h]
    rfl
  refine ⟨?_, hnodes, ?_⟩
  · rw [getBlastRadius_impactLevel, hnodes, h]
    show impactLevelOf (((0 : Nat) : ℚ) / ((0 : Nat) : ℚ)) = "low"
    norm_num [impactLevelOf]
  · intro hwf
    have hedges : g.edges = [] := by
      rw [List.eq_nil_iff_forall_not_mem]
      intro e he
      obtain ⟨⟨n, hn, _⟩, _⟩ := hwf e he
      rw [h] at hn
      cases hn
    show g.edges.filter
      (fun e => (blastAffected g nodeId).contains e.source
        || (blastAffected g nodeId).contains e.target
        || (e.target == nodeId)) = []
    rw [hedges]
    rfl

/-- Witness for C10 (amended) on the empty graph. -/
theorem blast_zero_nodes_low_witness :
    emptyGraph.nodes = [] ∧ EdgesWellFormed emptyGraph ∧
    (getBlastRadius emptyGraph "x").impactLevel = "low" ∧
    (getBlastRadius emptyGraph "x").affectedNodes = [] ∧
    (getBlastRadius emptyGraph "x").affectedEdges = [] := by
  have hmain := blast_zero_nodes_low emptyGraph "x" (by decide)
  exact ⟨by decide, by decide, hmain.1, hmain.2.1, hmain.2.2 (by decide)⟩

/-! ### findCouplingReason lemmas (for C6) -/

theorem string_data_append (a b : String) : (a ++ b).data = a.data ++ b.data := rfl

theorem append_ne_of_head_ne (l₁ l₂ : List Char) (c₁ c₂ : Char)
    (h₁ : l₁.head? = some c₁) (h₂ : l₂.head? = some c₂) (hne : c₁ ≠ c₂) :
    ∀ r, l₁ ++ r ≠ l₂ := by
  intro r h
  cases l₁ with
  | nil => cases h₁
  | cons x xs =>
    cases l₂ with
    | nil => cases h₂
    | cons y ys =>
      have hx : x = c₁ := by
        simp only [List.head?_cons, Option.some.injEq] at h₁
        exact h₁
      have hy : y = c₂ := by
        simp only [List.head?_cons, Option.some.injEq] at h₂
        exact h₂
      have hxy : x = y := by
        have := congrArg List.head? h
        simp only [List.cons_append, List.head?_cons, Option.some.injEq] at this
        exact this
      exact hne (hx ▸ hy ▸ hxy)

theorem shared_line_ne (s : String) :
    ("Shared dependencies: " ++ s) ≠ noCouplingMsg := by
  intro h
  have hd : "Shared dependencies: ".data ++ s.data = noCouplingMsg.data := by
    rw [← string_data_append, h]
  exact append_ne_of_head_ne _ _ 'S' 'N' (by decide) (by decide) (by decide)
    s.data hd

theorem common_line_ne (s : String) :
    ("Common dependents: " ++ s) ≠ noCouplingMsg := by
  intro h
  have hd : "Common dependents: ".data ++ s.data = noCouplingMsg.data := by
    rw [← string_data_append, h]
  exact append_ne_of_head_ne _ _ 'C' 'N' (by decide) (by decide) (by decide)
    s.data hd

theorem direct_line_ne (x y : String) :
    ("Direct dependency between " ++ x ++ " and " ++ y) ≠ noCouplingMsg := by
  intro h
  have hd : "Direct dependency between ".data ++ (x.data ++ " and ".data ++ y.data)
      = noCouplingMsg.data := by
    rw [← List.append_assoc, ← List.append_assoc, ← string_data_append,
      ← string_data_append, ← string_data_append, h]
  exact append_ne_of_head_ne _ _ 'D' 'N' (by decide) (by decide) (by decide)
    _ hd

theorem mem_directPairReasons_ne (g : DependencyGraph) (l : List String) :
    ∀ r ∈ directPairReasons g l, r ≠ noCouplingMsg := by
  intro r hr
  unfold directPairReasons at hr
  rcases List.mem_filterMap.mp hr with ⟨p, _, hp⟩
  by_cases hd : hasDirectEdge g p.1 p.2 = true
  · rw [if_pos hd] at hp
    rcases Option.some.inj hp with he
    rw [← he]
    exact direct_line_ne p.1 p.2
  · rw [if_neg hd] at hp
    cases hp

/-- The `reasons` field of `findCouplingReason` for at least two ids. -/
theorem findCouplingReason_reasons (g : DependencyGraph) (l : List String)
    (h : ¬ l.length < 2) :
    (findCouplingReason g l).reasons =
      (if ((if (sharedDependencies g l).length > 0 then
          ["Shared dependencies: " ++ String.intercalate ", "
            ((sharedDependencies g l).map (fun n => n.name))] else []) ++
        (if (sharedDependents g l).length > 0 then
          ["Common dependents: " ++ String.intercalate ", "
            ((sharedDependents g l).map (fun id =>
              match findNode g id with
              | some n => n.name
              | none => id))] else []) ++
        directPairReasons g l).length = 0 then [noCouplingMsg]
      else
        (if (sharedDependencies g l).length > 0 then
          ["Shared dependencies: " ++ String.intercalate ", "
            ((sharedDependencies g l).map (fun n => n.name))] else []) ++
        (if (sharedDependents g l).length > 0 then
          ["Common dependents: " ++ String.intercalate ", "
            ((sharedDependents g l).map (fun id =>
              match findNode g id with
              | some n => n.name
              | none => id))] else []) ++
        directPairReasons g l) := by
  unfold findCouplingReason
  rw [if_neg h]

/-- The `couplingStrength` field of `findCouplingReason` for at least two
ids. -/
theorem findCouplingReason_strength (g : DependencyGraph) (l : List String)
    (h : ¬ l.length < 2) :
    (findCouplingReason g l).couplingStrength =
      if g.nodes.length > 0 then
        ((((sharedDependencies g l).length + (sharedDependents g l).length : Nat)) : ℚ)
          / (g.nodes.length : ℚ)
      else 0 := by
  unfold findCouplingReason
  rw [if_neg h]

/-- C6: for any two node ids with disjoint downstream dependency
closures, disjoint upstream dependent closures, and no direct edge in
either direction, `findCouplingReason` returns `couplingStrength = 0`
and exactly the single fallback reason; and in general, for at least two
ids, the fallback reason is the whole reasons list exactly when no
shared-dependency line, no shared-dependent line and no direct-edge line
was produced. -/
theorem findCouplingReason_no_coupling (g : DependencyGraph) (a b : String)
    (hdeps : ∀ x ∈ closureOf g a, x ∉ closureOf g b)
    (hdepts : ∀ x ∈ dependentClosureOf g a, x ∉ dependentClosureOf g b)
    (hedge : hasDirectEdge g a b = false) :
    ((findCouplingReason g [a, b]).couplingStrength = 0 ∧
      (findCouplingReason g [a, b]).reasons = [noCouplingMsg]) ∧
    (∀ (g' : DependencyGraph) (l : List String), 2 ≤ l.length →
      ((findCouplingReason g' l).reasons = [noCouplingMsg] ↔
        sharedDependencies g' l = [] ∧ sharedDependents g' l = [] ∧
        directPairReasons g' l = [])) := by
  have hgen : ∀ (g' : DependencyGraph) (l : List String), 2 ≤ l.length →
      ((findCouplingReason g' l).reasons = [noCouplingMsg] ↔
        sharedDependencies g' l = [] ∧ sharedDependents g' l = [] ∧
        directPairReasons g' l = []) := by
    intro g' l hl
    rw [findCouplingReason_reasons g' l (by omega)]
    constructor
    · intro hr
      by_cases hlen : ((if (sharedDependencies g' l).length > 0 then
            ["Shared dependencies: " ++ String.intercalate ", "
              ((sharedDependencies g' l).map (fun n => n.name))] else []) ++
          (if (sharedDependents g' l).length > 0 then
            ["Common dependents: " ++ String.intercalate ", "
              ((sharedDependents g' l).map (fun id =>
                match findNode g' id with
                | some n => n.name
                | none => id))] else []) ++
          directPairReasons g' l).length = 0
      · have hnil := List.eq_nil_of_length_eq_zero hlen
        rcases List.append_eq_nil.mp hnil with ⟨h12, h3⟩
        rcases List.append_eq_nil.mp h12 with ⟨h1, h2⟩
        refine ⟨?_, ?_, h3⟩
        · by_cases hc : (sharedDependencies g' l).length > 0
          · rw [if_pos hc] at h1; cases h1
          · exact List.eq_nil_of_length_eq_zero (by omega)
        · by_cases hc : (sharedDependents g' l).length > 0
          · rw [if_pos hc] at h2; cases h2
          · exact List.eq_nil_of_length_eq_zero (by omega)
      · rw [if_neg hlen] at hr
        exfalso
        have hmem : noCouplingMsg ∈
            (if (sharedDependencies g' l).length > 0 then
              ["Shared dependencies: " ++ String.intercalate ", "
                ((sharedDependencies g' l).map (fun n => n.name))] else []) ++
            (if (sharedDependents g' l).length > 0 then
              ["Common dependents: " ++ String.intercalate ", "
                ((sharedDependents g' l).map (fun id =>
                  match findNode g' id with
                  | some n => n.name
                  | none => id))] else []) ++
            directPairReasons g' l := by
          rw [hr]
          exact List.mem_singleton.mpr rfl
        rcases List.mem_append.mp hmem with h12 | h3
        · rcases List.mem_append.mp h12 with h1 | h2
          · by_cases hc : (sharedDependencies g' l).length > 0
            · rw [if_pos hc] at h1
              exact shared_line_ne _ (List.mem_singleton.mp h1).symm
            · rw [if_neg hc] at h1
              cases h1
          · by_cases hc : (sharedDependents g' l).length > 0
            · rw [if_pos hc] at h2
              exact common_line_ne _ (List.mem_singleton.mp h2).symm
            · rw [if_neg hc] at h2
              cases h2
        · exact mem_directPairReasons_ne g' l _ h3 rfl
    · rintro ⟨h1, h2, h3⟩
      rw [h1, h2, h3]
      rfl
  refine ⟨?_, hgen⟩
  have hl : ¬ ([a, b] : List String).length < 2 := by simp
  have hinter : intersectSets ([a, b].map (closureOf g)) = [] := by
    show (closureOf g a).filter (fun x => (closureOf g b).contains x) = []
    refine List.filter_eq_nil_iff.mpr ?_
    intro x hx
    intro hc
    exact hdeps x hx (List.mem_of_elem_eq_true hc)
  have hsd : sharedDependencies g [a, b] = [] := by
    unfold sharedDependencies
    rw [hinter]
    refine List.filter_eq_nil_iff.mpr ?_
    intro n _
    simp
  have hsdep : sharedDependents g [a, b] = [] := by
    unfold sharedDependents
    show (dependentClosureOf g a).filter
      (fun x => (dependentClosureOf g b).contains x) = []
    refine List.filter_eq_nil_iff.mpr ?_
    intro x hx
    intro hc
    exact hdepts x hx (List.mem_of_elem_eq_true hc)
  have hdir : directPairReasons g [a, b] = [] := by
    show (listPairs [a, b]).filterMap _ = []
    have hp : listPairs [a, b] = [(a, b)] := rfl
    rw [hp]
    simp [hedge]
  constructor
  · rw [findCouplingReason_strength g [a, b] hl, hsd, hsdep]
    by_cases hn : g.nodes.length > 0
    · rw [if_pos hn]
      simp
    · rw [if_neg hn]
  · rw [(hgen g [a, b] (by simp))]
    exact ⟨hsd, hsdep, hdir⟩

/-- Witness for C6 on the two isolated nodes of `gIsolated`. -/
theorem findCouplingReason_no_coupling_witness :
    (∀ x ∈ closureOf gIsolated "a", x ∉ closureOf gIsolated "b") ∧
    hasDirectEdge gIsolated "a" "b" = false ∧
    (findCouplingReason gIsolated ["a", "b"]).couplingStrength = 0 ∧
    (findCouplingReason gIsolated ["a", "b"]).reasons = [noCouplingMsg] := by
  have hmain := findCouplingReason_no_coupling gIsolated "a" "b"
    (by decide) (by decide) (by decide)
  exact ⟨by decide, by decide, hmain.1.1, hmain.1.2⟩

/-! ### DFS cycle-detection soundness (for C3) -/

theorem mem_forwardAdj (g : DependencyGraph) (a b : String) :
    b ∈ forwardAdj g a ↔ FwdStep g a b := by
  unfold forwardAdj FwdStep
  simp [List.mem_filter]
  constructor
  · rintro ⟨e, ⟨he, hs⟩, ht⟩
    exact ⟨e, he, hs, ht⟩
  · rintro ⟨e, he, hs, ht⟩
    exact ⟨e, ⟨he, hs⟩, ht⟩

/-- Walking a forward chain from any member reaches its last element. -/
theorem chain_reflTransGen (g : DependencyGraph) :
    ∀ (Q : List String) (c x : String),
      List.Chain' (FwdStep g) (Q ++ [c]) → x ∈ Q ++ [c] →
      Relation.ReflTransGen (FwdStep g) x c := by
  intro Q
  induction Q with
  | nil =>
    intro c x hch hx
    have hxc : x = c := by simpa using hx
    subst hxc
    exact Relation.ReflTransGen.refl
  | cons q Qr ih =>
    intro c x hch hx
    rw [List.cons_append] at hch hx
    have hch' : List.Chain' (FwdStep g) (Qr ++ [c]) := hch.tail
    rcases List.mem_cons.mp hx with he | hm
    · subst he
      cases Qr with
      | nil =>
        have hqc : FwdStep g x c := by
          rw [List.nil_append] at hch
          exact List.chain'_pair.mp hch
        exact Relation.ReflTransGen.single hqc
      | cons q' Qr' =>
        have h1 : FwdStep g x q' := by
          rw [List.cons_append] at hch
          exact (List.chain'_cons.mp hch).1
        have h2 := ih c q' hch' (List.mem_append_left _ (List.mem_cons_self _ _))
        exact Relation.ReflTransGen.head h1 h2
    · exact ih c x hch' hm

/-- A back edge from the end of a forward chain to one of its members
closes a directed cycle. -/
theorem chain_cycle (g : DependencyGraph) (Q : List String) (c x : String)
    (hch : List.Chain' (FwdStep g) (Q ++ [c])) (hx : x ∈ Q ++ [c])
    (hstep : FwdStep g c x) : HasCycle g :=
  ⟨x, Relation.TransGen.tail' (chain_reflTransGen g Q c x hch hx) hstep⟩

theorem pushCycle_path (g : DependencyGraph) (n : String) (st : DfsState) :
    (pushCycle g n st).path = st.path := by
  unfold pushCycle
  dsimp only
  split <;> rfl

theorem pushCycle_recStack (g : DependencyGraph) (n : String) (st : DfsState) :
    (pushCycle g n st).recStack = st.recStack := by
  unfold pushCycle
  dsimp only
  split <;> rfl

theorem pushCycle_visited (g : DependencyGraph) (n : String) (st : DfsState) :
    (pushCycle g n st).visited = st.visited := by
  unfold pushCycle
  dsimp only
  split <;> rfl

/-- Invariant preservation through the neighbor loop of the DFS: the path
and recursion stack are restored, the visited set only grows, and any
reported cycle is justified by a real cycle (either pre-existing or
created by a genuine back edge into the recursion stack). -/
theorem dfsNeighbors_ok (g : DependencyGraph) (step : String → DfsState → DfsState)
    (nodeId : String) (P1 R1 : List String)
    (hchain : List.Chain' (FwdStep g) P1)
    (hform : ∃ Q, P1 = Q ++ [nodeId])
    (hR1P1 : ∀ x ∈ R1, x ∈ P1)
    (hstep : ∀ n st', st'.path = P1 → st'.recStack = R1 →
      (∀ x ∈ R1, x ∈ st'.visited) → (st'.cycles ≠ [] → HasCycle g) →
      n ∉ st'.visited → n ∈ forwardAdj g nodeId →
      (step n st').path = P1 ∧ (step n st').recStack = R1 ∧
      (∀ x ∈ st'.visited, x ∈ (step n st').visited) ∧
      ((step n st').cycles ≠ [] → HasCycle g)) :
    ∀ (neighbors : List String), (∀ n ∈ neighbors, n ∈ forwardAdj g nodeId) →
      ∀ (st : DfsState), st.path = P1 → st.recStack = R1 →
      (∀ x ∈ R1, x ∈ st.visited) → (st.cycles ≠ [] → HasCycle g) →
      (dfsNeighbors g step neighbors st).path = P1 ∧
      (dfsNeighbors g step neighbors st).recStack = R1 ∧
      (∀ x ∈ st.visited, x ∈ (dfsNeighbors g step neighbors st).visited) ∧
      ((dfsNeighbors g step neighbors st).cycles ≠ [] → HasCycle g) := by
  intro neighbors
  induction neighbors with
  | nil =>
    intro _ st hp hr hv hc
    exact ⟨hp, hr, fun x hx => hx, hc⟩
  | cons n rest ih =>
    intro hsub st hp hr hv hc
    have heq : dfsNeighbors g step (n :: rest) st =
        dfsNeighbors g step rest
          (if st.visited.contains n = true then
            (if st.recStack.contains n = true then pushCycle g n st else st)
          else step n st) := rfl
    rw [heq]
    by_cases h1 : st.visited.contains n = true
    · by_cases h2 : st.recStack.contains n = true
      · rw [if_pos h1, if_pos h2]
        have hcyc : HasCycle g := by
          obtain ⟨Q, hQ⟩ := hform
          have hnP1 : n ∈ P1 := by
            apply hR1P1
            rw [← hr]
            exact List.mem_of_elem_eq_true h2
          refine chain_cycle g Q nodeId n (by rw [← hQ]; exact hchain)
            (by rw [← hQ]; exact hnP1) ?_
          exact (mem_forwardAdj g nodeId n).mp (hsub n (List.mem_cons_self _ _))
        obtain ⟨hp'', hr'', hm'', hc''⟩ := ih
          (fun m hm => hsub m (List.mem_cons_of_mem _ hm)) (pushCycle g n st)
          ((pushCycle_path g n st).trans hp)
          ((pushCycle_recStack g n st).trans hr)
          (by rw [pushCycle_visited]; exact hv)
          (fun _ => hcyc)
        refine ⟨hp'', hr'', ?_, hc''⟩
        intro x hx
        apply hm''
        rw [pushCycle_visited]
        exact hx
      · rw [if_pos h1, if_neg h2]
        exact ih (fun m hm => hsub m (List.mem_cons_of_mem _ hm)) st hp hr hv hc
    · rw [if_neg h1]
      have hnv : n ∉ st.visited := fun hmem => h1 (List.elem_eq_true_of_mem hmem)
      obtain ⟨sp, sr, sm, sc⟩ := hstep n st hp hr hv hc hnv
        (hsub n (List.mem_cons_self _ _))
      obtain ⟨hp'', hr'', hm'', hc''⟩ := ih
        (fun m hm => hsub m (List.mem_cons_of_mem _ hm)) (step n st)
        sp sr (fun x hx => sm x (hv x hx)) sc
      exact ⟨hp'', hr'', fun x hx => hm'' x (sm x hx), hc''⟩

/-- Invariant preservation of one recursive DFS call: the path and
recursion stack are restored exactly, visited only grows, and reported
cycles imply a real cycle in the graph. -/
theorem dfs_ok (g : DependencyGraph) :
    ∀ (fuel : Nat) (nodeId : String) (st : DfsState),
      List.Chain' (FwdStep g) (st.path ++ [nodeId]) →
      (∀ x ∈ st.recStack, x ∈ st.path) →
      (∀ x ∈ st.recStack, x ∈ st.visited) →
      nodeId ∉ st.recStack →
      (st.cycles ≠ [] → HasCycle g) →
      (dfs g fuel nodeId st).path = st.path ∧
      (dfs g fuel nodeId st).recStack = st.recStack ∧
      (∀ x ∈ st.visited, x ∈ (dfs g fuel nodeId st).visited) ∧
      ((dfs g fuel nodeId st).cycles ≠ [] → HasCycle g) := by
  intro fuel
  induction fuel with
  | zero =>
    intro nodeId st h1 h2 h3 h4 h5
    exact ⟨rfl, rfl, fun x hx => hx, h5⟩
  | succ fuel ih =>
    intro nodeId st h1 h2 h3 h4 h5
    have hR1P1 : ∀ x ∈ st.recStack ++ [nodeId], x ∈ st.path ++ [nodeId] := by
      intro x hx
      rcases List.mem_append.mp hx with h | h
      · exact List.mem_append_left _ (h2 x h)
      · exact List.mem_append_right _ h
    have hstepprop : ∀ n st', st'.path = st.path ++ [nodeId] →
        st'.recStack = st.recStack ++ [nodeId] →
        (∀ x ∈ st.recStack ++ [nodeId], x ∈ st'.visited) →
        (st'.cycles ≠ [] → HasCycle g) →
        n ∉ st'.visited → n ∈ forwardAdj g nodeId →
        (dfs g fuel n st').path = st.path ++ [nodeId] ∧
        (dfs g fuel n st').recStack = st.recStack ++ [nodeId] ∧
        (∀ x ∈ st'.visited, x ∈ (dfs g fuel n st').visited) ∧
        ((dfs g fuel n st').cycles ≠ [] → HasCycle g) := by
      intro n st' hsp hsr hsv hsc hnv hnadj
      have hchain' : List.Chain' (FwdStep g) (st'.path ++ [n]) := by
        rw [hsp, List.chain'_append]
        refine ⟨h1, List.chain'_singleton n, ?_⟩
        intro x hx y hy
        have hlast : (st.path ++ [nodeId]).getLast? = some nodeId := by simp
        rw [hlast] at hx
        have hx' : x = nodeId := by
          cases hx
          rfl
        have hy' : y = n := by
          simp only [List.head?_cons, Option.mem_def, Option.some.injEq] at hy
          exact hy.symm
        subst hx'
        subst hy'
        exact (mem_forwardAdj g x y).mp hnadj
      obtain ⟨a, b, c, d⟩ := ih n st' hchain'
        (by rw [hsr, hsp]; exact hR1P1)
        (by rw [hsr]; exact hsv)
        (by
          rw [hsr]
          intro hmem
          exact hnv (hsv n hmem))
        hsc
      exact ⟨by rw [a, hsp], by rw [b, hsr], c, d⟩
    obtain ⟨hp2, hr2, hm2, hc2⟩ := dfsNeighbors_ok g (dfs g fuel) nodeId
      (st.path ++ [nodeId]) (st.recStack ++ [nodeId])
      h1 ⟨st.path, rfl⟩ hR1P1 hstepprop (forwardAdj g nodeId) (fun n hn => hn)
      { st with
        visited := st.visited ++ [nodeId]
        recStack := st.recStack ++ [nodeId]
        path := st.path ++ [nodeId] }
      rfl rfl
      (by
        intro x hx
        rcases List.mem_append.mp hx with hxx | hxx
        · exact List.mem_append_left _ (h3 x hxx)
        · exact List.mem_append_right _ hxx)
      h5
    refine ⟨?_, ?_, ?_, ?_⟩
    · show (dfsNeighbors g (dfs g fuel) (forwardAdj g nodeId)
        { st with
          visited := st.visited ++ [nodeId]
          recStack := st.recStack ++ [nodeId]
          path := st.path ++ [nodeId] }).path.dropLast = st.path
      rw [hp2]
      simp
    · show (dfsNeighbors g (dfs g fuel) (forwardAdj g nodeId)
        { st with
          visited := st.visited ++ [nodeId]
          recStack := st.recStack ++ [nodeId]
          path := st.path ++ [nodeId] }).recStack.erase nodeId = st.recStack
      rw [hr2]
      rw [List.erase_append_right _ h4]
      simp
    · intro x hx
      show x ∈ (dfsNeighbors g (dfs g fuel) (forwardAdj g nodeId)
        { st with
          visited := st.visited ++ [nodeId]
          recStack := st.recStack ++ [nodeId]
          path := st.path ++ [nodeId] }).visited
      exact hm2 x (List.mem_append_left _ hx)
    · exact hc2

/-- Every cycle reported by `detectCycles` corresponds to a real directed
cycle of the graph. -/
theorem detectCycles_sound (g : DependencyGraph) :
    (detectCycles g).cycles ≠ [] → HasCycle g := by
  have hfold : ∀ (nodes : List GraphNode) (st : DfsState),
      st.path = [] → st.recStack = [] → (st.cycles ≠ [] → HasCycle g) →
      (nodes.foldl (fun st node =>
        if st.visited.contains node.id then st
        else dfs g (traversalFuel g) node.id st) st).path = [] ∧
      (nodes.foldl (fun st node =>
        if st.visited.contains node.id then st
        else dfs g (traversalFuel g) node.id st) st).recStack = [] ∧
      ((nodes.foldl (fun st node =>
        if st.visited.contains node.id then st
        else dfs g (traversalFuel g) node.id st) st).cycles ≠ [] → HasCycle g) := by
    intro nodes
    induction nodes with
    | nil => intro st hp hr hc; exact ⟨hp, hr, hc⟩
    | cons node rest ih =>
      intro st hp hr hc
      rw [List.foldl_cons]
      by_cases hvis : st.visited.contains node.id = true
      · rw [if_pos hvis]
        exact ih st hp hr hc
      · rw [if_neg hvis]
        obtain ⟨a, b, _, d⟩ := dfs_ok g (traversalFuel g) node.id st
          (by rw [hp]; exact List.chain'_singleton node.id)
          (by rw [hr]; intro x hx; cases hx)
          (by rw [hr]; intro x hx; cases hx)
          (by rw [hr]; intro hmem; cases hmem)
          hc
        exact ih _ (a.trans hp) (b.trans hr) d
  intro hne
  have := hfold g.nodes
    { visited := [], recStack := [], path := [], cycles := [] } rfl rfl
    (fun hx => absurd rfl hx)
  exact this.2.2 hne

/-- C3: `detectCycles` reports severity `error` exactly when the returned
cycles list is non-empty and `warning` exactly when it is empty; the
three-cycle `a → b → c → a` yields a non-empty cycle and severity
`error`; and every acyclic graph (no directed cycle) yields `cycles = []`
and severity `warning`. -/
theorem detectCycles_spec :
    (∀ g : DependencyGraph,
      ((detectCycles g).severity = "error" ↔ (detectCycles g).cycles ≠ []) ∧
      ((detectCycles g).severity = "warning" ↔ (detectCycles g).cycles = []) ∧
      (¬ HasCycle g →
        (detectCycles g).cycles = [] ∧ (detectCycles g).severity = "warning")) ∧
    ((detectCycles gCycle3).cycles ≠ [] ∧
      (∃ c ∈ (detectCycles gCycle3).cycles, c ≠ []) ∧
      (detectCycles gCycle3).severity = "error") := by
  have hsev : ∀ g : DependencyGraph, (detectCycles g).severity =
      (if (detectCycles g).cycles.length > 0 then "error" else "warning") :=
    fun g => rfl
  have hmain : ∀ g : DependencyGraph,
      ((detectCycles g).severity = "error" ↔ (detectCycles g).cycles ≠ []) ∧
      ((detectCycles g).severity = "warning" ↔ (detectCycles g).cycles = []) := by
    intro g
    rw [hsev g]
    by_cases h : (detectCycles g).cycles.length > 0
    · rw [if_pos h]
      have hne : (detectCycles g).cycles ≠ [] := by
        intro he
        rw [he] at h
        exact absurd h (by simp)
      exact ⟨⟨fun _ => hne, fun _ => rfl⟩,
        ⟨fun hw => absurd hw (by decide), fun he => absurd he hne⟩⟩
    · rw [if_neg h]
      have heq : (detectCycles g).cycles = [] :=
        List.eq_nil_of_length_eq_zero (by omega)
      exact ⟨⟨fun hw => absurd hw (by decide), fun hne => absurd heq hne⟩,
        ⟨fun _ => heq, fun _ => rfl⟩⟩
  refine ⟨fun g => ⟨(hmain g).1, (hmain g).2, ?_⟩, by decide, by decide, by decide⟩
  intro hacyc
  have hcyc : (detectCycles g).cycles = [] := by
    by_contra hne
    exact hacyc (detectCycles_sound g hne)
  exact ⟨hcyc, (hmain g).2.mpr hcyc⟩

/-- Witness for C3 on the empty graph, which is acyclic. -/
theorem detectCycles_spec_witness :
    ¬ HasCycle emptyGraph ∧ (detectCycles emptyGraph).cycles = [] ∧
    (detectCycles emptyGraph).severity = "warning" := by
  have hacyc : ¬ HasCycle emptyGraph := by
    rintro ⟨x, h⟩
    cases h with
    | single hs =>
      rcases hs with ⟨e, he, _⟩
      cases he
    | tail h1 h2 =>
      rcases h2 with ⟨e, he, _⟩
      cases he
  have h := (detectCycles_spec.1 emptyGraph).2.2 hacyc
  exact ⟨hacyc, h.1, h.2⟩

end ArchGraph
